import Mathlib

set_option maxHeartbeats 1000000

/-!
Formal model of the Egregoria per-commodity market engine
(simulation/src/economy/market.rs), shallowly embedded in Lean.

Machine-integer conventions used throughout:
* u32 values are modelled as Nat, i32/i64/Money as Int.
* Rust `as` casts (which truncate or sign-extend in every build profile)
  are modelled exactly: u32_to_i32, i32_to_u32.
* u32 subtraction, the i32 subtraction in the external selling phase,
  and the i32 capital updates of the settlement step and of the external
  buy credit are modelled with wrapping (release-profile) semantics:
  usub32, wrap32.
* BTreeMap is modelled as an association list kept in ascending key order
  (smInsert), so iteration order of the model is BTreeMap iteration order.
* The f32 order positions are modelled with integer coordinates; the
  matcher only ever compares squared distances and none of the claims
  hinges on floating-point rounding.
-/

abbrev SoulID := Nat
abbrev ItemID := Nat
abbrev Money := Int

/-- Rust `q as i32` for a u32 value `q` (two's-complement reinterpretation). -/
def u32_to_i32 (q : Nat) : Int :=
  if q % 2 ^ 32 < 2 ^ 31 then ((q % 2 ^ 32 : Nat) : Int) else ((q % 2 ^ 32 : Nat) : Int) - 2 ^ 32

/-- Rust `x as u32` for an i32 value `x` (wrap modulo 2^32). -/
def i32_to_u32 (x : Int) : Nat := (x % 2 ^ 32).toNat

/-- Wrapping u32 subtraction `a - b` (release-profile semantics). -/
def usub32 (a b : Nat) : Nat := (((a : Int) - (b : Int)) % 2 ^ 32).toNat

/-- Wrap an integer into the i32 range (release-profile i32 arithmetic). -/
def wrap32 (x : Int) : Int := (x + 2 ^ 31) % 2 ^ 32 - 2 ^ 31

/-- Sorted association list standing in for `BTreeMap<Nat-keyed id, α>`. -/
abbrev SMap (α : Type) := List (Nat × α)

/-- `BTreeMap::get`. -/
def smFind {α : Type} : SMap α → Nat → Option α
  | [], _ => none
  | (k', v) :: t, k => if k = k' then some v else smFind t k

/-- `BTreeMap::insert`, keeping keys in ascending order (replaces on equal key). -/
def smInsert {α : Type} : SMap α → Nat → α → SMap α
  | [], k, v => [(k, v)]
  | (k', v') :: t, k, v =>
    if k < k' then (k, v) :: (k', v') :: t
    else if k = k' then (k, v) :: t
    else (k', v') :: smInsert t k v

/-- `BTreeMap::remove` (drops the entry with the given key). -/
def smErase {α : Type} : SMap α → Nat → SMap α
  | [], _ => []
  | (k', v) :: t, k => if k = k' then t else (k', v) :: smErase t k

/-- Capital read with the `unwrap_or(0)` default used throughout the market. -/
def smGet0 (m : SMap Int) (k : Nat) : Int := (smFind m k).getD 0

/-- `capital.entry(k).or_default()`: ensure a (zero) entry exists. -/
def smEntry0 (m : SMap Int) (k : Nat) : SMap Int :=
  match smFind m k with
  | some _ => m
  | none => smInsert m k 0

/-- Keys are strictly ascending (the canonical-form invariant of BTreeMap). -/
def smSorted {α : Type} (m : SMap α) : Prop :=
  List.Chain' (fun a b => a.1 < b.1) m

theorem smFind_insert_self {α : Type} (m : SMap α) (k : Nat) (v : α) :
    smFind (smInsert m k v) k = some v := by
  induction m with
  | nil => simp [smInsert, smFind]
  | cons h t ih =>
    obtain ⟨k', v'⟩ := h
    by_cases h1 : k < k'
    · simp [smInsert, h1, smFind]
    · by_cases h2 : k = k'
      · simp [smInsert, h1, h2, smFind]
      · simp [smInsert, h1, h2, smFind, ih]

theorem smFind_insert_ne {α : Type} (m : SMap α) (k k' : Nat) (v : α) (h : k' ≠ k) :
    smFind (smInsert m k v) k' = smFind m k' := by
  induction m with
  | nil => simp [smInsert, smFind, h]
  | cons hd t ih =>
    obtain ⟨k0, v0⟩ := hd
    by_cases h1 : k < k0
    · by_cases h2 : k' = k0 <;> simp [smInsert, h1, smFind, h, h2] <;> omega
    · by_cases h2 : k = k0
      · subst h2
        simp [smInsert, h1, smFind, h]
      · by_cases h3 : k' = k0 <;> simp [smInsert, h1, h2, smFind, h3, ih]

theorem smGet0_insert_self (m : SMap Int) (k : Nat) (v : Int) :
    smGet0 (smInsert m k v) k = v := by
  simp [smGet0, smFind_insert_self]

theorem smGet0_insert_ne (m : SMap Int) (k k' : Nat) (v : Int) (h : k' ≠ k) :
    smGet0 (smInsert m k v) k' = smGet0 m k' := by
  simp [smGet0, smFind_insert_ne m k k' v h]

theorem smGet0_entry0 (m : SMap Int) (k k' : Nat) :
    smGet0 (smEntry0 m k) k' = smGet0 m k' := by
  unfold smEntry0
  cases hf : smFind m k with
  | some v => rfl
  | none =>
    by_cases h : k' = k
    · subst h
      simp [smGet0, smFind_insert_self, hf]
    · simp [smGet0, smFind_insert_ne m k k' 0 h]

theorem smErase_sublist {α : Type} (m : SMap α) (k : Nat) :
    List.Sublist (smErase m k) m := by
  induction m with
  | nil => simp [smErase]
  | cons hd t ih =>
    obtain ⟨k0, v0⟩ := hd
    by_cases h : k = k0
    · simp [smErase, h]
    · simpa [smErase, h] using List.Sublist.cons₂ (k0, v0) ih

theorem smErase_mem {α : Type} {m : SMap α} {k : Nat} {p : Nat × α}
    (h : p ∈ smErase m k) : p ∈ m :=
  (smErase_sublist m k).mem h

/-- `SellOrder { pos, qty, stock }` from market.rs. -/
structure SellOrder where
  pos : Int × Int
  qty : Nat
  stock : Nat
deriving DecidableEq

/-- `BuyOrder { pos, qty }` from market.rs. -/
structure BuyOrder where
  pos : Int × Int
  qty : Nat
deriving DecidableEq

/-- Squared euclidean distance `Vec2::distance2` on the modelled positions. -/
def distance2 (a b : Int × Int) : Int := (a.1 - b.1) ^ 2 + (a.2 - b.2) ^ 2

/-- `SingleMarket`: the per-commodity ledger. -/
structure SingleMarket where
  capital : SMap Int
  buy_orders : SMap BuyOrder
  sell_orders : SMap SellOrder
  ext_value : Money
  optout_exttrade : Bool
deriving DecidableEq

/-- `TradeTarget`: either a soul or the external market. -/
inductive TradeTarget where
  | Soul (s : SoulID)
  | ExternalTrade
deriving DecidableEq

/-- `TradeTarget::soul`.  The Rust original panics on `ExternalTrade`;
`make_trades` only ever applies it to `Soul` values, and the model returns
a junk soul id on the unreachable branch. -/
def TradeTarget.soulD : TradeTarget → SoulID
  | .Soul s => s
  | .ExternalTrade => 0

/-- `Trade`: one settled transfer. -/
structure Trade where
  buyer : TradeTarget
  seller : TradeTarget
  qty : Int
  kind : ItemID
  money_delta : Money
deriving DecidableEq

/-- `Market`: one ledger per commodity (the two serde-skipped scratch
vectors of the source are modelled functionally). -/
structure Market where
  markets : SMap SingleMarket
deriving DecidableEq

/-- The one inner-loop body of the candidate generation of `make_trades`:
skip self-trades, skip buys larger than the sell, otherwise emit a scored
zero-money soul-to-soul candidate. -/
def candidateFor (kind : ItemID) (seller : SoulID) (sorder : SellOrder) (qty_sell : Int)
    (buyer : SoulID) (border : BuyOrder) : List (Trade × Int) :=
  if seller = buyer then []
  else
    let qty_buy := u32_to_i32 border.qty
    if qty_buy > qty_sell then []
    else [(⟨.Soul buyer, .Soul seller, qty_buy, kind, 0⟩, distance2 sorder.pos border.pos)]

/-- Candidate generation of `make_trades`: for every sell order whose
seller has a tracked capital at least the sell quantity, pair it with
every admissible buy order. -/
def genCandidates (kind : ItemID) (mkt : SingleMarket) : List (Trade × Int) :=
  mkt.sell_orders.flatMap (fun se =>
    let qty_sell := u32_to_i32 se.2.qty
    match smFind mkt.capital se.1 with
    | none => []
    | some capital_sell =>
      if qty_sell > capital_sell then []
      else mkt.buy_orders.flatMap (fun be => candidateFor kind se.1 se.2 qty_sell be.1 be.2))

/-- Insert one scored candidate into a list sorted by ascending score. -/
def insertByScore (p : Trade × Int) : List (Trade × Int) → List (Trade × Int)
  | [] => [p]
  | q :: qs => if p.2 < q.2 then p :: q :: qs else q :: insertByScore p qs

/-- `sort_unstable_by_key(|(_, x)| x)`: deterministic sort by ascending score. -/
def sortByScore : List (Trade × Int) → List (Trade × Int)
  | [] => []
  | p :: ps => insertByScore p (sortByScore ps)

/-- The three mutable components of a `SingleMarket` during settlement. -/
structure SettleSt where
  capital : SMap Int
  buy_orders : SMap BuyOrder
  sell_orders : SMap SellOrder
deriving DecidableEq

/-- One settlement attempt of `make_trades` (the body of the
`filter_map` over the sorted candidate list), translated statement by
statement from the source: check the seller still has the capital, create
the buyer's capital entry, consume the buy order, then the sell order,
and move the goods (both i32 capital updates wrap, release-profile). -/
def settleOne (st : SettleSt) (t : Trade) : SettleSt × Option Trade :=
  let seller := t.seller.soulD
  let buyer := t.buyer.soulD
  let cap0 := smEntry0 st.capital seller
  if smGet0 cap0 seller < t.qty then ({ st with capital := cap0 }, none)
  else
    let cap1 := smEntry0 cap0 buyer
    match smFind st.buy_orders buyer with
    | none => ({ st with capital := cap1 }, none)
    | some _ =>
      let bo := smErase st.buy_orders buyer
      match smFind st.sell_orders seller with
      | none => (⟨cap1, bo, st.sell_orders⟩, none)
      | some sorder =>
        if sorder.qty < i32_to_u32 t.qty then (⟨cap1, bo, st.sell_orders⟩, none)
        else
          let newq := usub32 sorder.qty (i32_to_u32 t.qty)
          let so :=
            if newq = 0 then smErase st.sell_orders seller
            else smInsert st.sell_orders seller { sorder with qty := newq }
          let cap2 := smInsert cap1 buyer (wrap32 (smGet0 cap1 buyer + t.qty))
          let cap3 := smInsert cap2 seller (wrap32 (smGet0 cap2 seller - t.qty))
          (⟨cap3, bo, so⟩, some t)

/-- Run the settlement attempts in candidate order, keeping the trades
that succeed (the `extend(...filter_map(...))` of the source). -/
def settleAll (st : SettleSt) : List Trade → SettleSt × List Trade
  | [] => (st, [])
  | t :: ts =>
    let r := settleOne st t
    let rest := settleAll r.1 ts
    (rest.1, (match r.2 with | some tr => [tr] | none => []) ++ rest.2)

/-- The internal (soul-to-soul) matching pass of `make_trades` for one
commodity: generate candidates, sort them by distance, settle greedily. -/
def internalPass (kind : ItemID) (mkt : SingleMarket) : SettleSt × List Trade :=
  settleAll ⟨mkt.capital, mkt.buy_orders, mkt.sell_orders⟩
    ((sortByScore (genCandidates kind mkt)).map Prod.fst)

/-- One step of the external buy fallback: credit the buyer (a wrapping
i32 addition) and emit the `{Soul, ExternalTrade}` trade. -/
def extBuyStep (kind : ItemID) (ev : Money) (acc : SMap Int × List Trade)
    (p : SoulID × BuyOrder) : SMap Int × List Trade :=
  let qty_buy := u32_to_i32 p.2.qty
  (smInsert acc.1 p.1 (wrap32 (smGet0 acc.1 p.1 + qty_buy)),
    acc.2 ++ [⟨.Soul p.1, .ExternalTrade, qty_buy, kind, -(ev * qty_buy)⟩])

/-- External buy fallback of `make_trades`: every remaining buy order is
taken from the book and satisfied externally. -/
def extBuyPhase (kind : ItemID) (ev : Money) (cap : SMap Int) (bos : SMap BuyOrder) :
    SMap Int × List Trade :=
  bos.foldl (extBuyStep kind ev) (cap, [])

/-- One step of the external sell fallback: a sell order whose quantity
exceeds its protected stock sells the surplus externally, unless the
surplus is nonpositive (in i32 arithmetic) or exceeds the tracked capital. -/
def extSellStep (kind : ItemID) (ev : Money) (acc : SMap Int × SMap SellOrder × List Trade)
    (p : SoulID × SellOrder) : SMap Int × SMap SellOrder × List Trade :=
  let (cap, sosAcc, ts) := acc
  let (seller, order) := p
  let qty_sell := wrap32 (u32_to_i32 order.qty - u32_to_i32 order.stock)
  if qty_sell ≤ 0 then (cap, sosAcc ++ [(seller, order)], ts)
  else
    let cap1 := smEntry0 cap seller
    if smGet0 cap1 seller < qty_sell then (cap1, sosAcc ++ [(seller, order)], ts)
    else
      let cap2 := smInsert cap1 seller (smGet0 cap1 seller - qty_sell)
      let order' := { order with qty := usub32 order.qty (i32_to_u32 qty_sell) }
      (cap2, sosAcc ++ [(seller, order')],
        ts ++ [⟨.ExternalTrade, .Soul seller, qty_sell, kind, ev * qty_sell⟩])

/-- External sell fallback of `make_trades` (the `iter_mut` loop over the
sell book, rebuilt entry by entry in iteration order). -/
def extSellPhase (kind : ItemID) (ev : Money) (cap : SMap Int) (sos : SMap SellOrder) :
    SMap Int × SMap SellOrder × List Trade :=
  sos.foldl (extSellStep kind ev) (cap, [], [])

/-- `make_trades` for one commodity: internal pass, then (unless the
commodity opted out) the two external fallback phases. -/
def processCommodity (kind : ItemID) (mkt : SingleMarket) : SingleMarket × List Trade :=
  let r1 := internalPass kind mkt
  let st1 := r1.1
  if mkt.optout_exttrade then
    ({ mkt with capital := st1.capital, buy_orders := st1.buy_orders,
                sell_orders := st1.sell_orders }, r1.2)
  else
    let r2 := extBuyPhase kind mkt.ext_value st1.capital st1.buy_orders
    let r3 := extSellPhase kind mkt.ext_value r2.1 st1.sell_orders
    ({ mkt with capital := r3.1, buy_orders := [], sell_orders := r3.2.1 },
      r1.2 ++ r2.2 ++ r3.2.2)

/-- `Market::make_trades`: run every commodity in (BTreeMap) order,
returning the updated market and the full trade batch. -/
def Market.make_trades (mk : Market) : Market × List Trade :=
  let r := mk.markets.foldl
    (fun acc p =>
      let pr := processCommodity p.1 p.2
      (acc.1 ++ [(p.1, pr.1)], acc.2 ++ pr.2))
    ([], [])
  (⟨r.1⟩, r.2)

/-- One `(item, amount)` entry of a recipe. -/
structure RecipeItem where
  id : ItemID
  amount : Nat
deriving DecidableEq

/-- The recipe of a goods company (the fields `calculate_prices` reads). -/
structure Recipe where
  production : List RecipeItem
  consumption : List RecipeItem
  complexity : Nat
deriving DecidableEq

/-- A goods-company prototype (the fields `calculate_prices` reads). -/
structure GoodsCompany where
  recipe : Recipe
  n_workers : Nat
deriving DecidableEq

/-- The loaded prototype catalog: the company list and the item list, in
their global iteration order. -/
structure Catalog where
  companies : List GoodsCompany
  items : List ItemID
deriving DecidableEq

/-- The reverse index `item -> companies producing it` built at the top of
`calculate_prices` (one copy per matching production entry, in company
iteration order, exactly as the push loop builds it). -/
def itemGraph (cat : Catalog) (id : ItemID) : List GoodsCompany :=
  cat.companies.flatMap
    (fun c => c.recipe.production.filterMap (fun r => if r.id = id then some c else none))

/-- `complexity * n_workers * WORKER_CONSUMPTION_PER_SECOND` (the worker
consumption constant is the parameter `wcps`). -/
def laborCost (wcps : Money) (c : GoodsCompany) : Money :=
  (c.recipe.complexity : Int) * (c.n_workers : Int) * wcps

/-- The produced amount of `id` in a company's recipe
(`find_map(..).unwrap_or(0)`). -/
def prodAmount (c : GoodsCompany) (id : ItemID) : Int :=
  ((c.recipe.production.find? (fun r => r.id == id)).map (fun r => (r.amount : Int))).getD 0

/-- `price_consumption`: the consumption cost of a recipe read off a price
map (missing items read as zero, as `unwrap_or(0)` never fires in a
successful run). -/
def consSum (P : SMap Int) : List RecipeItem → Money
  | [] => 0
  | r :: rs => smGet0 P r.id * (r.amount : Int) + consSum P rs

/-- The price one company gives an item.  `mF` is the opaque multiplier
application `|x| (x as f32 * price_multiplier) as i64` of the source,
abstracted because its f32 round-trip is not shallowly embeddable; it is
applied to the labor term only.  Division is Rust i64 division
(truncation towards zero). -/
def companyPrice (mF : Int → Int) (wcps : Money) (P : SMap Int) (c : GoodsCompany)
    (id : ItemID) : Money :=
  Int.tdiv (consSum P c.recipe.consumption + mF (laborCost wcps c)) (prodAmount c id)

/-- The running-minimum accumulator
`minprice.map(|x| x.min(newprice)).or(Some(newprice))`. -/
def minFold (acc : Option Int) (x : Int) : Option Int :=
  some (match acc with | some a => min a x | none => x)

/-- The price the final map should assign an item: the minimum over its
producing companies of their `companyPrice`, or zero with no producer. -/
def specPrice (cat : Catalog) (mF : Int → Int) (wcps : Money) (P : SMap Int)
    (id : ItemID) : Money :=
  (((itemGraph cat id).map (fun c => companyPrice mF wcps P c id)).foldl minFold none).getD 0

/-- The consumption loop of `calculate_price_inner`: recursively price
each consumed item (via the supplied recursive step), then accumulate
`price * amount` from the updated map. -/
def consLoop (step : ItemID → SMap Int → Option (SMap Int)) :
    List RecipeItem → SMap Int → Money → Option (SMap Int × Money)
  | [], m, acc => some (m, acc)
  | r :: rs, m, acc =>
    match step r.id m with
    | none => none
    | some m' => consLoop step rs m' (acc + smGet0 m' r.id * (r.amount : Int))

/-- The company loop of `calculate_price_inner`: fold the running minimum
price over the producing companies, threading the memo map. -/
def compLoop (mF : Int → Int) (wcps : Money) (step : ItemID → SMap Int → Option (SMap Int))
    (id : ItemID) :
    List GoodsCompany → SMap Int → Option Money → Option (SMap Int × Option Money)
  | [], m, acc => some (m, acc)
  | c :: cs, m, acc =>
    match consLoop step c.recipe.consumption m 0 with
    | none => none
    | some (m', pc) =>
      let newprice := Int.tdiv (pc + mF (laborCost wcps c)) (prodAmount c id)
      compLoop mF wcps step id cs m' (minFold acc newprice)

/-- `calculate_price_inner`, with a fuel bound standing in for the call
stack: the Rust recursion diverges (overflows the stack) on a cyclic
catalog, which the model renders as `none` on fuel exhaustion. -/
def calcInner (cat : Catalog) (mF : Int → Int) (wcps : Money) :
    Nat → ItemID → SMap Int → Option (SMap Int)
  | 0, _, _ => none
  | f + 1, id, m =>
    if (smFind m id).isSome then some m
    else
      match compLoop mF wcps (calcInner cat mF wcps f) id (itemGraph cat id) m none with
      | none => none
      | some (m', minp) => some (smInsert m' id (minp.getD 0))

/-- The outer loop of `calculate_prices` over all items of the catalog. -/
def calculatePricesAux (cat : Catalog) (mF : Int → Int) (wcps : Money) (fuel : Nat) :
    List ItemID → SMap Int → Option (SMap Int)
  | [], m => some m
  | i :: is, m =>
    match calcInner cat mF wcps fuel i m with
    | none => none
    | some m' => calculatePricesAux cat mF wcps fuel is m'

/-- `calculate_prices`: price every item of the catalog by memoized
recursion over the production graph. -/
def calculate_prices (cat : Catalog) (mF : Int → Int) (wcps : Money) (fuel : Nat) :
    Option (SMap Int) :=
  calculatePricesAux cat mF wcps fuel cat.items []

/-- `Market::m` / the `unwrap` on the commodity key: `none` models the
panic on a commodity that is not in the market's catalog. -/
def Market.findM (mk : Market) (kind : ItemID) : Option SingleMarket :=
  smFind mk.markets kind

/-- Rebuild the market with one commodity's ledger replaced; `none`
models the `unwrap` panic of `Market::m` on an unknown commodity. -/
def Market.withM (mk : Market) (kind : ItemID) (f : SingleMarket → SingleMarket) :
    Option Market :=
  match smFind mk.markets kind with
  | none => none
  | some m => some ⟨smInsert mk.markets kind (f m)⟩

/-- `Market::sell`: place or overwrite a sell order. -/
def Market.sell (mk : Market) (soul : SoulID) (near : Int × Int) (kind : ItemID)
    (qty stock : Nat) : Option Market :=
  mk.withM kind (fun m =>
    { m with sell_orders := smInsert m.sell_orders soul ⟨near, qty, stock⟩ })

/-- `Market::capital`: the soul's owned quantity, zero when the soul has
no entry; `none` models the `unwrap` panic on an unknown commodity. -/
def Market.capital (mk : Market) (soul : SoulID) (kind : ItemID) : Option Int :=
  (smFind mk.markets kind).map (fun m => smGet0 m.capital soul)

/-- `Market::sell_all`: sell the whole current capital, no-op when it is
nonpositive (`c as u32` is the cast of the source). -/
def Market.sell_all (mk : Market) (soul : SoulID) (near : Int × Int) (kind : ItemID)
    (stock : Nat) : Option Market :=
  match mk.capital soul kind with
  | none => none
  | some c => if c ≤ 0 then some mk else mk.sell soul near kind (i32_to_u32 c) stock

/-- `Market::buy`: place or overwrite a buy order. -/
def Market.buy (mk : Market) (soul : SoulID) (near : Int × Int) (kind : ItemID)
    (qty : Nat) : Option Market :=
  mk.withM kind (fun m =>
    { m with buy_orders := smInsert m.buy_orders soul ⟨near, qty⟩ })

/-- `Market::buy_until`: no-op when capital already covers `qty as i32`,
otherwise buy the u32 difference `qty - c as u32`. -/
def Market.buy_until (mk : Market) (soul : SoulID) (near : Int × Int) (kind : ItemID)
    (qty : Nat) : Option Market :=
  match mk.capital soul kind with
  | none => none
  | some c =>
    if u32_to_i32 qty ≤ c then some mk
    else mk.buy soul near kind (usub32 qty (i32_to_u32 c))

/-- `Market::produce`: add `delta` to the soul's capital entry (created
at zero if absent) and return the new amount. -/
def Market.produce (mk : Market) (soul : SoulID) (kind : ItemID) (delta : Int) :
    Option (Market × Int) :=
  match smFind mk.markets kind with
  | none => none
  | some m =>
    let v := smGet0 m.capital soul + delta
    some (⟨smInsert mk.markets kind { m with capital := smInsert m.capital soul v }⟩, v)

/-- `Market::register`: ensure a zero-capital entry exists. -/
def Market.register (mk : Market) (soul : SoulID) (kind : ItemID) : Option Market :=
  mk.withM kind (fun m => { m with capital := smEntry0 m.capital soul })

/-- `Market::remove`: purge a soul from every commodity's three maps
(total: it iterates the values and unwraps nothing). -/
def Market.remove (mk : Market) (soul : SoulID) : Market :=
  ⟨mk.markets.map (fun p =>
    (p.1, { p.2 with capital := smErase p.2.capital soul,
                     buy_orders := smErase p.2.buy_orders soul,
                     sell_orders := smErase p.2.sell_orders soul }))⟩

theorem u32_to_i32_small (q : Nat) (h : q < 2 ^ 31) : u32_to_i32 q = (q : Int) := by
  unfold u32_to_i32
  have hq : q % 2 ^ 32 = q := Nat.mod_eq_of_lt (by omega)
  rw [hq]
  simp
  omega

theorem i32_to_u32_neg (c : Int) (h1 : -2 ^ 31 ≤ c) (h2 : c < 0) :
    (i32_to_u32 c : Int) = c + 2 ^ 32 := by
  unfold i32_to_u32
  omega

theorem i32_to_u32_nonneg (c : Int) (h1 : 0 ≤ c) (h2 : c < 2 ^ 32) :
    (i32_to_u32 c : Int) = c := by
  unfold i32_to_u32
  omega

theorem usub32_shortfall (qty : Nat) (c : Int) (h1 : qty < 2 ^ 31) (h2 : -2 ^ 31 ≤ c)
    (h3 : c < qty) : usub32 qty (i32_to_u32 c) = ((qty : Int) - c).toNat := by
  unfold usub32 i32_to_u32
  omega

/-- The market fixture for claim C6: one known commodity (id 0). -/
def mkC6 : Market :=
  ⟨[(0, { capital := [(4, 5)], buy_orders := [], sell_orders := [],
          ext_value := 2, optout_exttrade := false })]⟩

/-- Claim C6 counterexample: commodity 1 is not in the market's catalog,
and both `Market::capital` and `Market::buy` hit the `unwrap` panic of the
commodity lookup (modelled as `none`): the operation aborts instead of
being accepted silently, refuting the claim for these inputs. -/
theorem C6_counterexample :
    Market.capital mkC6 4 1 = none ∧ Market.buy mkC6 4 (0, 0) 1 5 = none :=
  ⟨rfl, rfl⟩

/-- Claim C6 (amended): provided the commodity is one of the market's
known items, no public ledger operation returns an error or aborts —
`sell`, `buy`, `sell_all`, `buy_until`, `produce`, `register` and
`capital` succeed on every input (zero and no-op quantities included),
and looking up the capital of an unregistered soul silently yields 0.
Operations on a commodity outside the catalog abort (see the
counterexample). -/
theorem C6_ledger_total (mk : Market) (kind : ItemID)
    (h : (smFind mk.markets kind).isSome)
    (soul : SoulID) (near : Int × Int) (qty stock : Nat) (delta : Int) :
    (mk.sell soul near kind qty stock).isSome ∧
    (mk.buy soul near kind qty).isSome ∧
    (mk.sell_all soul near kind stock).isSome ∧
    (mk.buy_until soul near kind qty).isSome ∧
    (mk.produce soul kind delta).isSome ∧
    (mk.register soul kind).isSome ∧
    (mk.capital soul kind).isSome ∧
    (∀ m, smFind mk.markets kind = some m → smFind m.capital soul = none →
      mk.capital soul kind = some 0) := by
  obtain ⟨m, hm⟩ := Option.isSome_iff_exists.mp h
  refine ⟨?_, ?_, ?_, ?_, ?_, ?_, ?_, ?_⟩
  · simp [Market.sell, Market.withM, hm]
  · simp [Market.buy, Market.withM, hm]
  · simp only [Market.sell_all, Market.capital, hm, Option.map_some']
    split
    · rfl
    · simp [Market.sell, Market.withM, hm]
  · simp only [Market.buy_until, Market.capital, hm, Option.map_some']
    split
    · rfl
    · simp [Market.buy, Market.withM, hm]
  · simp [Market.produce, hm]
  · simp [Market.register, Market.withM, hm]
  · simp [Market.capital, hm]
  · intro m' hm' hcap
    simp only [Market.capital, hm']
    simp [smGet0, hcap]

/-- Witness for C6_ledger_total at the concrete fixture `mkC6`. -/
theorem C6_ledger_total_witness :
    (mkC6.sell 4 (0, 0) 0 0 3).isSome ∧ (mkC6.buy_until 4 (0, 0) 0 0).isSome :=
  ⟨(C6_ledger_total mkC6 0 rfl 4 (0, 0) 0 3 (-1)).1,
   (C6_ledger_total mkC6 0 rfl 4 (0, 0) 0 3 (-1)).2.2.2.1⟩

/-- The market fixture for claim C8: one known commodity, soul 4 owns
nothing. -/
def mkC8 : Market :=
  ⟨[(0, { capital := [], buy_orders := [], sell_orders := [],
          ext_value := 3, optout_exttrade := false })]⟩

/-- Claim C8 counterexample: with qty = 2^31 and capital 0 the claim
demands a buy order for the shortfall 2^31, but `qty as i32` is negative,
the no-op guard `c >= qty as i32` passes, and `buy_until` leaves the
market unchanged (no buy order is placed). -/
theorem C8_counterexample :
    Market.buy_until mkC8 4 (0, 0) 0 (2 ^ 31) = some mkC8 ∧
    Market.capital mkC8 4 0 = some 0 ∧ ((0 : Int) < ((2 ^ 31 : Nat) : Int)) :=
  ⟨rfl, rfl, by norm_num⟩

/-- Claim C8 (amended): for qty < 2^31 (so that the `qty as i32` cast is
the identity) and a capital in i32 range, `buy_until` leaves the market
unchanged when the soul's capital already covers qty, and otherwise places
a buy order for exactly the shortfall qty - capital, replacing any
existing buy order of that soul for that commodity. -/
theorem C8_buy_until (mk : Market) (soul : SoulID) (near : Int × Int) (kind : ItemID)
    (qty : Nat) (m : SingleMarket)
    (hm : smFind mk.markets kind = some m)
    (hq : qty < 2 ^ 31) (hc : -2 ^ 31 ≤ smGet0 m.capital soul) :
    ((qty : Int) ≤ smGet0 m.capital soul → mk.buy_until soul near kind qty = some mk) ∧
    (smGet0 m.capital soul < (qty : Int) →
      mk.buy_until soul near kind qty =
        some ⟨smInsert mk.markets kind
          { m with buy_orders := (smInsert m.buy_orders soul
              ⟨near, ((qty : Int) - smGet0 m.capital soul).toNat⟩) }⟩) := by
  constructor
  · intro hle
    simp [Market.buy_until, Market.capital, hm, u32_to_i32_small qty hq, hle]
  · intro hlt
    rw [Market.buy_until, Market.capital, hm]
    simp only [Option.map_some']
    rw [u32_to_i32_small qty hq, if_neg (by omega)]
    rw [usub32_shortfall qty (smGet0 m.capital soul) hq hc hlt]
    simp [Market.buy, Market.withM, hm]

/-- Witness for C8_buy_until at the fixture `mkC8` (capital 0, qty 5). -/
theorem C8_buy_until_witness :
    Market.buy_until mkC8 4 (0, 0) 0 5 =
      some ⟨[(0, { capital := [], buy_orders := [(4, { pos := (0, 0), qty := 5 })], sell_orders := [],
                   ext_value := 3, optout_exttrade := false })]⟩ := by
  have h := (C8_buy_until mkC8 4 (0, 0) 0 5
    ({ capital := [], buy_orders := [], sell_orders := [],
       ext_value := 3, optout_exttrade := false }) rfl (by norm_num) (by decide)).2
    (by decide)
  simpa using h

/-- The market fixture for claim C10: soul 4 owns capital -1 of
commodity 0 (reachable via `produce` with a negative delta). -/
def mkC10 : Market :=
  ⟨[(0, { capital := [(4, -1)], buy_orders := [], sell_orders := [],
          ext_value := 3, optout_exttrade := false })]⟩

/-- Claim C10 counterexample: with capital -1 and qty 5 the claim says no
buy order for the shortfall qty - capital is placed; but under the
wrapping the claim itself cites, `buy_until` places a buy order of
exactly 6 = 5 - (-1), i.e. exactly the shortfall. -/
theorem C10_counterexample :
    Market.buy_until mkC10 4 (0, 0) 0 5 =
      some ⟨[(0, { capital := [(4, -1)], buy_orders := [(4, { pos := (0, 0), qty := 6 })],
                   sell_orders := [], ext_value := 3, optout_exttrade := false })]⟩ ∧
    ((6 : Int) = (5 : Int) - (-1)) :=
  ⟨rfl, by norm_num⟩

/-- Claim C10 (amended): with negative capital c (in i32 range) and
qty < 2^31, the no-op guard of `buy_until` passes and the u32 subtraction
`qty - c as u32` underflows in the u32 sense (qty < c as u32; a debug
build panics here); under the wrapping semantics the claim itself invokes
for release builds, the placed quantity is (qty - c) mod 2^32, which
equals the exact shortfall qty - c, so a buy order for the shortfall IS
placed — contrary to the claim's conclusion. -/
theorem C10_buy_until_neg (mk : Market) (soul : SoulID) (near : Int × Int) (kind : ItemID)
    (qty : Nat) (m : SingleMarket)
    (hm : smFind mk.markets kind = some m)
    (hneg : smGet0 m.capital soul < 0) (hq : qty < 2 ^ 31)
    (hc : -2 ^ 31 ≤ smGet0 m.capital soul) :
    qty < i32_to_u32 (smGet0 m.capital soul) ∧
    mk.buy_until soul near kind qty =
      some ⟨smInsert mk.markets kind
        { m with buy_orders := (smInsert m.buy_orders soul
            ⟨near, ((qty : Int) - smGet0 m.capital soul).toNat⟩) }⟩ := by
  constructor
  · have := i32_to_u32_neg (smGet0 m.capital soul) hc hneg
    omega
  · exact (C8_buy_until mk soul near kind qty m hm hq hc).2 (by omega)

/-- Witness for C10_buy_until_neg at the fixture `mkC10` (capital -1, qty 5). -/
theorem C10_buy_until_neg_witness :
    (5 : Nat) < i32_to_u32 (-1) ∧
    Market.buy_until mkC10 4 (0, 0) 0 5 =
      some ⟨[(0, { capital := [(4, -1)], buy_orders := [(4, { pos := (0, 0), qty := 6 })],
                   sell_orders := [], ext_value := 3, optout_exttrade := false })]⟩ := by
  have h := C10_buy_until_neg mkC10 4 (0, 0) 0 5
    ({ capital := [(4, -1)], buy_orders := [], sell_orders := [],
       ext_value := 3, optout_exttrade := false }) rfl (by decide) (by norm_num) (by decide)
  exact ⟨h.1, by rw [h.2]; rfl⟩

theorem mem_insertByScore {p q : Trade × Int} {l : List (Trade × Int)}
    (h : q ∈ insertByScore p l) : q = p ∨ q ∈ l := by
  induction l with
  | nil => simpa [insertByScore] using h
  | cons x xs ih =>
    rw [insertByScore] at h
    split at h
    · simpa using h
    · rcases List.mem_cons.mp h with h1 | h1
      · exact Or.inr (by simp [h1])
      · rcases ih h1 with h2 | h2
        · exact Or.inl h2
        · exact Or.inr (List.mem_cons_of_mem x h2)

theorem mem_sortByScore {q : Trade × Int} {l : List (Trade × Int)}
    (h : q ∈ sortByScore l) : q ∈ l := by
  induction l with
  | nil => simpa [sortByScore] using h
  | cons x xs ih =>
    rw [sortByScore] at h
    rcases mem_insertByScore h with h1 | h1
    · simp [h1]
    · exact List.mem_cons_of_mem x (ih h1)

theorem genCandidates_mem {kind : ItemID} {mkt : SingleMarket} {t : Trade} {d : Int}
    (h : (t, d) ∈ genCandidates kind mkt) :
    ∃ b s border, (b, border) ∈ mkt.buy_orders ∧ s ≠ b ∧
      t = ⟨.Soul b, .Soul s, u32_to_i32 border.qty, kind, 0⟩ := by
  unfold genCandidates at h
  rcases List.mem_flatMap.mp h with ⟨se, hse, hmem⟩
  rcases hfind : smFind mkt.capital se.1 with _ | cap
  · rw [hfind] at hmem
    simp at hmem
  · rw [hfind] at hmem
    dsimp only [] at hmem
    split at hmem
    · simp at hmem
    · rcases List.mem_flatMap.mp hmem with ⟨be, hbe, hc⟩
      unfold candidateFor at hc
      split at hc
      · simp at hc
      · dsimp only [] at hc
        split at hc
        · simp at hc
        · rcases List.mem_singleton.mp hc with h2
          refine ⟨be.1, se.1, be.2, hbe, ?_, ?_⟩
          · rename_i hne _
            exact hne
          · exact congrArg Prod.fst h2

theorem settleOne_emit {st : SettleSt} {t : Trade} {st' : SettleSt} {tr : Trade}
    (h : settleOne st t = (st', some tr)) : tr = t := by
  unfold settleOne at h
  dsimp only [] at h
  split at h
  · simp at h
  · split at h
    · simp at h
    · split at h
      · simp at h
      · split at h
        · simp at h
        · rw [Prod.mk.injEq] at h
          exact (Option.some.injEq _ _ ▸ h.2).symm

theorem settleAll_mem {l : List Trade} :
    ∀ {st : SettleSt} {tr : Trade}, tr ∈ (settleAll st l).2 →
      ∃ st1 st2 t, t ∈ l ∧ settleOne st1 t = (st2, some tr) := by
  induction l with
  | nil => intro st tr h; simp [settleAll] at h
  | cons t ts ih =>
    intro st tr h
    rw [settleAll] at h
    rcases List.mem_append.mp h with h1 | h1
    · rcases hr : (settleOne st t).2 with _ | tr'
      · rw [hr] at h1; simp at h1
      · rw [hr] at h1
        rcases List.mem_singleton.mp h1 with h2
        exact ⟨st, (settleOne st t).1, t, List.mem_cons_self t ts, by rw [h2, ← hr]⟩
    · rcases ih h1 with ⟨st1, st2, t0, hmem, hone⟩
      exact ⟨st1, st2, t0, List.mem_cons_of_mem t hmem, hone⟩

theorem wrap32_eq_self {x : Int} (h1 : -2 ^ 31 ≤ x) (h2 : x < 2 ^ 31) : wrap32 x = x := by
  unfold wrap32
  omega

theorem settleOne_sellOrder_bound {st : SettleSt} {t : Trade} {st' : SettleSt} {s : SoulID}
    (hs : t.seller = .Soul s) (h : settleOne st t = (st', some t)) :
    ∃ so, smFind st.sell_orders s = some so ∧ i32_to_u32 t.qty ≤ so.qty := by
  unfold settleOne at h
  rw [hs] at h
  dsimp only [TradeTarget.soulD] at h
  split at h
  · simp at h
  · split at h
    · simp at h
    · split at h
      · simp at h
      · rename_i sorder hso
        split at h
        · simp at h
        · rename_i hqty
          exact ⟨sorder, hso, by omega⟩

theorem settleOne_deltas {st : SettleSt} {t : Trade} {st' : SettleSt} {b s : SoulID}
    (hb : t.buyer = .Soul b) (hs : t.seller = .Soul s) (hbs : b ≠ s)
    (hq : 0 ≤ t.qty)
    (hblo : -2 ^ 31 ≤ smGet0 st.capital b)
    (hbhi : smGet0 st.capital b + t.qty < 2 ^ 31)
    (hshi : smGet0 st.capital s < 2 ^ 31)
    (h : settleOne st t = (st', some t)) :
    smGet0 st'.capital b = smGet0 st.capital b + t.qty ∧
    smGet0 st'.capital s = smGet0 st.capital s - t.qty ∧
    0 ≤ smGet0 st'.capital s := by
  unfold settleOne at h
  rw [hb, hs] at h
  dsimp only [TradeTarget.soulD] at h
  split at h
  · simp at h
  · rename_i hguard
    split at h
    · simp at h
    · rename_i hbo hboval
      split at h
      · simp at h
      · rename_i sorder hso
        split at h
        · simp at h
        · rename_i hqty
          rw [Prod.mk.injEq] at h
          have hst : st' = ⟨smInsert (smInsert (smEntry0 (smEntry0 st.capital s) b) b
              (wrap32 (smGet0 (smEntry0 (smEntry0 st.capital s) b) b + t.qty))) s
              (wrap32 (smGet0 (smInsert (smEntry0 (smEntry0 st.capital s) b) b
                (wrap32 (smGet0 (smEntry0 (smEntry0 st.capital s) b) b + t.qty))) s - t.qty)),
              smErase st.buy_orders b,
              if usub32 sorder.qty (i32_to_u32 t.qty) = 0 then smErase st.sell_orders s
              else smInsert st.sell_orders s
                { sorder with qty := usub32 sorder.qty (i32_to_u32 t.qty) }⟩ := h.1.symm
          have e1 : smGet0 (smEntry0 (smEntry0 st.capital s) b) b = smGet0 st.capital b := by
            rw [smGet0_entry0, smGet0_entry0]
          have e2 : smGet0 (smEntry0 (smEntry0 st.capital s) b) s = smGet0 st.capital s := by
            rw [smGet0_entry0, smGet0_entry0]
          have hw1 : wrap32 (smGet0 (smEntry0 (smEntry0 st.capital s) b) b + t.qty) =
              smGet0 st.capital b + t.qty := by
            rw [e1]
            exact wrap32_eq_self (by omega) hbhi
          have e3 : smGet0 (smInsert (smEntry0 (smEntry0 st.capital s) b) b
              (wrap32 (smGet0 (smEntry0 (smEntry0 st.capital s) b) b + t.qty))) s
              = smGet0 st.capital s := by
            rw [smGet0_insert_ne _ _ _ _ (Ne.symm hbs), e2]
          have e4 : smGet0 (smInsert (smEntry0 (smEntry0 st.capital s) b) b
              (wrap32 (smGet0 (smEntry0 (smEntry0 st.capital s) b) b + t.qty))) b
              = smGet0 st.capital b + t.qty := by
            rw [smGet0_insert_self, hw1]
          rw [smGet0_entry0] at hguard
          have hw2 : wrap32 (smGet0 st.capital s - t.qty) = smGet0 st.capital s - t.qty :=
            wrap32_eq_self (by omega) (by omega)
          refine ⟨?_, ?_, ?_⟩
          · rw [hst]
            show smGet0 (smInsert _ s _) b = _
            rw [smGet0_insert_ne _ _ _ _ hbs, e4]
          · rw [hst]
            show smGet0 (smInsert _ s _) s = _
            rw [smGet0_insert_self, e3, hw2]
          · rw [hst]
            show (0 : Int) ≤ smGet0 (smInsert _ s _) s
            rw [smGet0_insert_self, e3, hw2]
            omega

theorem extBuyFold_trades (kind : ItemID) (ev : Money) :
    ∀ (bos : SMap BuyOrder) (cap : SMap Int) (acc : List Trade),
      (bos.foldl (extBuyStep kind ev) (cap, acc)).2 =
        acc ++ bos.map (fun p =>
          ⟨.Soul p.1, .ExternalTrade, u32_to_i32 p.2.qty, kind, -(ev * u32_to_i32 p.2.qty)⟩) := by
  intro bos
  induction bos with
  | nil => intro cap acc; simp
  | cons p ps ih =>
    intro cap acc
    rw [List.foldl_cons, List.map_cons]
    rw [ih]
    simp [extBuyStep]

theorem extBuyPhase_trades (kind : ItemID) (ev : Money) (cap : SMap Int) (bos : SMap BuyOrder) :
    (extBuyPhase kind ev cap bos).2 = bos.map (fun p =>
      ⟨.Soul p.1, .ExternalTrade, u32_to_i32 p.2.qty, kind, -(ev * u32_to_i32 p.2.qty)⟩) := by
  unfold extBuyPhase
  rw [extBuyFold_trades]
  simp

theorem extSellFold_mem (kind : ItemID) (ev : Money) :
    ∀ (sos : SMap SellOrder) (acc : SMap Int × SMap SellOrder × List Trade) (t : Trade),
      t ∈ (sos.foldl (extSellStep kind ev) acc).2.2 →
        t ∈ acc.2.2 ∨ ∃ s o, (s, o) ∈ sos ∧ ∃ q : Int, 0 < q ∧
          t = ⟨.ExternalTrade, .Soul s, q, kind, ev * q⟩ := by
  intro sos
  induction sos with
  | nil => intro acc t h; exact Or.inl h
  | cons p ps ih =>
    intro acc t h
    rw [List.foldl_cons] at h
    rcases ih _ t h with h1 | h1
    · unfold extSellStep at h1
      dsimp only [] at h1
      split at h1
      · exact Or.inl h1
      · rename_i hpos
        split at h1
        · exact Or.inl h1
        · rcases List.mem_append.mp h1 with h2 | h2
          · exact Or.inl h2
          · rcases List.mem_singleton.mp h2 with h3
            refine Or.inr ⟨p.1, p.2, List.mem_cons_self p ps, ?_⟩
            exact ⟨wrap32 (u32_to_i32 p.2.qty - u32_to_i32 p.2.stock), by omega, h3⟩
    · rcases h1 with ⟨s, o, hmem, hq⟩
      exact Or.inr ⟨s, o, List.mem_cons_of_mem p hmem, hq⟩

theorem extSellPhase_mem {kind : ItemID} {ev : Money} {cap : SMap Int} {sos : SMap SellOrder}
    {t : Trade} (h : t ∈ (extSellPhase kind ev cap sos).2.2) :
    ∃ s o, (s, o) ∈ sos ∧ ∃ q : Int, 0 < q ∧
      t = ⟨.ExternalTrade, .Soul s, q, kind, ev * q⟩ := by
  rcases extSellFold_mem kind ev sos (cap, [], []) t h with h1 | h1
  · simp at h1
  · exact h1

theorem processCommodity_mem {kind : ItemID} {mkt : SingleMarket} {t : Trade}
    (h : t ∈ (processCommodity kind mkt).2) :
    t ∈ (internalPass kind mkt).2 ∨
    (mkt.optout_exttrade = false ∧
      (t ∈ (extBuyPhase kind mkt.ext_value (internalPass kind mkt).1.capital
              (internalPass kind mkt).1.buy_orders).2 ∨
       t ∈ (extSellPhase kind mkt.ext_value
              (extBuyPhase kind mkt.ext_value (internalPass kind mkt).1.capital
                (internalPass kind mkt).1.buy_orders).1
              (internalPass kind mkt).1.sell_orders).2.2)) := by
  unfold processCommodity at h
  dsimp only [] at h
  split at h
  · exact Or.inl h
  · rename_i hopt
    rcases List.mem_append.mp h with h1 | h1
    · rcases List.mem_append.mp h1 with h2 | h2
      · exact Or.inl h2
      · exact Or.inr ⟨Bool.not_eq_true _ ▸ hopt, Or.inl h2⟩
    · exact Or.inr ⟨Bool.not_eq_true _ ▸ hopt, Or.inr h1⟩

theorem make_trades_fold_mem {t : Trade} :
    ∀ (l : SMap SingleMarket) (acc : SMap SingleMarket × List Trade),
      t ∈ (l.foldl (fun acc p =>
            let pr := processCommodity p.1 p.2
            (acc.1 ++ [(p.1, pr.1)], acc.2 ++ pr.2)) acc).2 →
        t ∈ acc.2 ∨ ∃ p, p ∈ l ∧ t ∈ (processCommodity p.1 p.2).2 := by
  intro l
  induction l with
  | nil => intro acc h; exact Or.inl h
  | cons p ps ih =>
    intro acc h
    rw [List.foldl_cons] at h
    rcases ih _ h with h1 | h1
    · dsimp only [] at h1
      rcases List.mem_append.mp h1 with h2 | h2
      · exact Or.inl h2
      · exact Or.inr ⟨p, List.mem_cons_self p ps, h2⟩
    · rcases h1 with ⟨q, hq, hmem⟩
      exact Or.inr ⟨q, List.mem_cons_of_mem p hq, hmem⟩

theorem make_trades_mem {mk : Market} {t : Trade} (h : t ∈ (Market.make_trades mk).2) :
    ∃ kind m, (kind, m) ∈ mk.markets ∧ t ∈ (processCommodity kind m).2 := by
  unfold Market.make_trades at h
  dsimp only [] at h
  rcases make_trades_fold_mem mk.markets ([], []) h with h1 | h1
  · simp at h1
  · rcases h1 with ⟨p, hp, hmem⟩
    exact ⟨p.1, p.2, hp, hmem⟩

theorem internal_trade_origin {kind : ItemID} {mkt : SingleMarket} {tr : Trade}
    (h : tr ∈ (internalPass kind mkt).2) :
    ∃ st1 st2 : SettleSt, settleOne st1 tr = (st2, some tr) ∧
      ∃ d, (tr, d) ∈ genCandidates kind mkt := by
  unfold internalPass at h
  rcases settleAll_mem h with ⟨st1, st2, t0, hmem, hone⟩
  have ht : tr = t0 := settleOne_emit hone
  subst ht
  rcases List.mem_map.mp hmem with ⟨pair, hpair, hfst⟩
  refine ⟨st1, st2, hone, pair.2, ?_⟩
  have : pair = (tr, pair.2) := by
    rw [Prod.ext_iff]
    exact ⟨hfst, rfl⟩
  rw [← this]
  exact mem_sortByScore hpair

/-- The market fixture for the C1 counterexample: seller 1 owns capital 1
and posts a sell order of qty 2^31; buyer 2 posts a buy order of qty
2^31 (commodity opted out of external trade, so only the internal pass
runs). -/
def mkC1cex : Market :=
  ⟨[(0, { capital := [(1, 1)], buy_orders := [(2, { pos := (0, 0), qty := 2 ^ 31 })],
          sell_orders := [(1, { pos := (0, 0), qty := 2 ^ 31, stock := 0 })],
          ext_value := 3, optout_exttrade := true })]⟩

/-- Claim C1 counterexample: with seller capital 1 and qty-2^31 orders,
the `as i32` casts make the candidate pass every guard with trade qty
-(2^31), and the wrapping i32 update `capital[seller] -= qty` drives the
seller's capital from 1 to -(2^31 - 1): the settlement leaves the
seller's capital below zero, and the seller's capital did not decrease
by the trade's qty (1 - qty would be 1 + 2^31). -/
theorem C1_counterexample :
    (Trade.mk (.Soul 2) (.Soul 1) (-(2 ^ 31)) 0 0) ∈ (Market.make_trades mkC1cex).2 ∧
    Market.capital (Market.make_trades mkC1cex).1 1 0 = some (-(2 ^ 31 - 1)) ∧
    ((-(2 ^ 31 - 1) : Int) < 0) ∧
    Market.capital mkC1cex 1 0 = some 1 ∧
    ((-(2 ^ 31 - 1) : Int) ≠ 1 - (-(2 ^ 31))) :=
  ⟨by decide, by decide, by decide, by decide, by decide⟩

/-- Claim C1 (amended): every soul-to-soul trade emitted by `make_trades`
carries zero money, pairs two distinct souls, and arises from a
settlement step that consumes no more than the seller's remaining
sell-order quantity; and a settlement step whose trade quantity is
nonnegative and whose buyer and seller capitals are in i32 range with no
overflow on the buyer's credit moves capital by exactly qty on both
sides and leaves the seller's capital nonnegative.  (Without the range
hypotheses the wrapping i32 capital updates falsify the exact deltas and
the nonnegativity — see the counterexample.) -/
theorem C1_conservation :
    (∀ (mk : Market) (t : Trade) (b s : SoulID),
      t ∈ (Market.make_trades mk).2 → t.buyer = .Soul b → t.seller = .Soul s →
      t.money_delta = 0 ∧ b ≠ s ∧
      ∃ st st' : SettleSt, settleOne st t = (st', some t) ∧
        ∃ so, smFind st.sell_orders s = some so ∧ i32_to_u32 t.qty ≤ so.qty) ∧
    (∀ (st : SettleSt) (t : Trade) (st' : SettleSt) (b s : SoulID),
      t.buyer = .Soul b → t.seller = .Soul s → b ≠ s → 0 ≤ t.qty →
      -2 ^ 31 ≤ smGet0 st.capital b → smGet0 st.capital b + t.qty < 2 ^ 31 →
      smGet0 st.capital s < 2 ^ 31 →
      settleOne st t = (st', some t) →
      smGet0 st'.capital b = smGet0 st.capital b + t.qty ∧
      smGet0 st'.capital s = smGet0 st.capital s - t.qty ∧
      0 ≤ smGet0 st'.capital s) := by
  constructor
  · intro mk t b s h hb hs
    rcases make_trades_mem h with ⟨kind, m, _, hmem⟩
    rcases processCommodity_mem hmem with h1 | ⟨_, h1 | h1⟩
    · rcases internal_trade_origin h1 with ⟨st1, st2, hone, d, hcand⟩
      rcases genCandidates_mem hcand with ⟨b', s', border, _, hneq, hshape⟩
      have hb' : b' = b := by
        rw [hshape] at hb
        exact TradeTarget.Soul.injEq b' b ▸ hb
      have hs' : s' = s := by
        rw [hshape] at hs
        exact TradeTarget.Soul.injEq s' s ▸ hs
      have hbs : b ≠ s := by
        rw [← hb', ← hs']
        exact fun hc => hneq hc.symm
      exact ⟨by rw [hshape], hbs, st1, st2, hone, settleOne_sellOrder_bound hs hone⟩
    · rw [extBuyPhase_trades] at h1
      rcases List.mem_map.mp h1 with ⟨p, _, hshape⟩
      rw [← hshape] at hs
      exact absurd hs (by simp)
    · rcases extSellPhase_mem h1 with ⟨s0, o0, _, q, _, hshape⟩
      rw [hshape] at hb
      exact absurd hb (by simp)
  · intro st t st' b s hb hs hbs hq hblo hbhi hshi h
    exact settleOne_deltas hb hs hbs hq hblo hbhi hshi h

/-- The market fixture for claim C1: seller 1 (capital 3) and buyer 2
match internally on commodity 0. -/
def mkC1 : Market :=
  ⟨[(0, { capital := [(1, 3)], buy_orders := [(2, { pos := (0, 0), qty := 2 })],
          sell_orders := [(1, { pos := (1, 0), qty := 3, stock := 5 })],
          ext_value := 7, optout_exttrade := false })]⟩

/-- The settlement state before the C1 witness step. -/
def stC1W : SettleSt :=
  ⟨[(1, 3)], [(2, { pos := (0, 0), qty := 2 })], [(1, { pos := (1, 0), qty := 3, stock := 5 })]⟩

/-- The settlement state after the C1 witness step. -/
def stC1Wafter : SettleSt :=
  ⟨[(1, 1), (2, 2)], [], [(1, { pos := (1, 0), qty := 1, stock := 5 })]⟩

/-- Witness for C1_conservation: the soul-to-soul trade of `mkC1`, and a
concrete settlement step with its exact buyer credit. -/
theorem C1_conservation_witness :
    (Trade.mk (.Soul 2) (.Soul 1) 2 0 0).money_delta = 0 ∧
    smGet0 stC1Wafter.capital 2 =
      smGet0 stC1W.capital 2 + (Trade.mk (.Soul 2) (.Soul 1) 2 0 0).qty :=
  ⟨(C1_conservation.1 mkC1 (Trade.mk (.Soul 2) (.Soul 1) 2 0 0) 2 1 (by decide) rfl rfl).1,
   (C1_conservation.2 stC1W (Trade.mk (.Soul 2) (.Soul 1) 2 0 0) stC1Wafter 2 1 rfl rfl
     (by decide) (by decide) (by decide) (by decide) (by decide) (by decide)).1⟩

/-- Claim C4: no trade emitted by `make_trades` has the same target as
buyer and seller; in particular a soul posting both a buy and a sell
order for the same commodity is never matched with itself (candidate
generation skips the pair with a diagnostic). -/
theorem C4_no_self_trade (mk : Market) (t : Trade)
    (h : t ∈ (Market.make_trades mk).2) : t.buyer ≠ t.seller := by
  rcases make_trades_mem h with ⟨kind, m, _, hmem⟩
  rcases processCommodity_mem hmem with h1 | ⟨_, h1 | h1⟩
  · rcases internal_trade_origin h1 with ⟨_, _, _, d, hcand⟩
    rcases genCandidates_mem hcand with ⟨b', s', border, _, hneq, hshape⟩
    rw [hshape]
    intro hc
    exact hneq (TradeTarget.Soul.injEq s' b' ▸ hc.symm)
  · rw [extBuyPhase_trades] at h1
    rcases List.mem_map.mp h1 with ⟨p, _, hshape⟩
    rw [← hshape]
    simp
  · rcases extSellPhase_mem h1 with ⟨s0, o0, _, q, _, hshape⟩
    rw [hshape]
    simp

/-- The market fixture for claim C4 (an internal match on commodity 0). -/
def mkC4 : Market :=
  ⟨[(0, { capital := [(1, 3)], buy_orders := [(2, { pos := (0, 0), qty := 2 })],
          sell_orders := [(1, { pos := (1, 0), qty := 3, stock := 5 })],
          ext_value := 7, optout_exttrade := false })]⟩

/-- Witness for C4_no_self_trade at the concrete fixture `mkC4`. -/
theorem C4_no_self_trade_witness :
    (Trade.mk (.Soul 2) (.Soul 1) 2 0 0).buyer ≠ (Trade.mk (.Soul 2) (.Soul 1) 2 0 0).seller :=
  C4_no_self_trade mkC4 (Trade.mk (.Soul 2) (.Soul 1) 2 0 0) (by decide)

theorem settleOne_buyOrders_sublist (st : SettleSt) (t : Trade) :
    List.Sublist (settleOne st t).1.buy_orders st.buy_orders := by
  unfold settleOne
  dsimp only []
  split
  · exact List.Sublist.refl _
  · split
    · exact List.Sublist.refl _
    · split
      · exact smErase_sublist _ _
      · split
        · exact smErase_sublist _ _
        · exact smErase_sublist _ _

theorem settleAll_buyOrders_sublist :
    ∀ (l : List Trade) (st : SettleSt),
      List.Sublist (settleAll st l).1.buy_orders st.buy_orders := by
  intro l
  induction l with
  | nil => intro st; exact List.Sublist.refl _
  | cons t ts ih =>
    intro st
    rw [settleAll]
    exact List.Sublist.trans (ih (settleOne st t).1) (settleOne_buyOrders_sublist st t)

/-- The market fixture for claim C7: a zero-quantity buy order on a
commodity open to external trade. -/
def mkC7 : Market :=
  ⟨[(0, { capital := [], buy_orders := [(2, { pos := (0, 0), qty := 0 })], sell_orders := [],
          ext_value := 3, optout_exttrade := false })]⟩

/-- Claim C7 counterexample: the zero-quantity buy order of `mkC7` is
settled externally as a trade with qty 0, so not every emitted trade has
a strictly positive quantity. -/
theorem C7_counterexample :
    (Trade.mk (.Soul 2) .ExternalTrade 0 0 0) ∈ (Market.make_trades mkC7).2 ∧
    ¬(0 < (Trade.mk (.Soul 2) .ExternalTrade 0 0 0).qty) :=
  ⟨by decide, by decide⟩

/-- Claim C7 (amended): provided every posted buy order has a quantity
that is positive and below 2^31 (the range on which the `qty as i32`
cast is faithful), every trade emitted by `make_trades` has a strictly
positive quantity; external sell trades are positive unconditionally
thanks to the surplus guard. -/
theorem C7_positive_qty (mk : Market)
    (hwf : ∀ kind m, (kind, m) ∈ mk.markets → ∀ b o, (b, o) ∈ m.buy_orders →
      0 < o.qty ∧ o.qty < 2 ^ 31)
    (t : Trade) (h : t ∈ (Market.make_trades mk).2) : 0 < t.qty := by
  rcases make_trades_mem h with ⟨kind, m, hmkt, hmem⟩
  rcases processCommodity_mem hmem with h1 | ⟨_, h1 | h1⟩
  · rcases internal_trade_origin h1 with ⟨_, _, _, d, hcand⟩
    rcases genCandidates_mem hcand with ⟨b', s', border, hbo, _, hshape⟩
    have hq := hwf kind m hmkt b' border hbo
    rw [hshape]
    show 0 < u32_to_i32 border.qty
    rw [u32_to_i32_small border.qty hq.2]
    omega
  · rw [extBuyPhase_trades] at h1
    rcases List.mem_map.mp h1 with ⟨p, hp, hshape⟩
    have hsub : p ∈ m.buy_orders := by
      have := settleAll_buyOrders_sublist
        ((sortByScore (genCandidates kind m)).map Prod.fst)
        ⟨m.capital, m.buy_orders, m.sell_orders⟩
      exact this.mem (by exact hp)
    have hq := hwf kind m hmkt p.1 p.2 hsub
    rw [← hshape]
    show 0 < u32_to_i32 p.2.qty
    rw [u32_to_i32_small p.2.qty hq.2]
    omega
  · rcases extSellPhase_mem h1 with ⟨s0, o0, _, q, hq, hshape⟩
    rw [hshape]
    exact hq

/-- The market fixture for the C7 witness: all order quantities positive
and small. -/
def mkC7W : Market :=
  ⟨[(0, { capital := [(1, 3)], buy_orders := [(2, { pos := (0, 0), qty := 2 })],
          sell_orders := [(1, { pos := (1, 0), qty := 3, stock := 5 })],
          ext_value := 7, optout_exttrade := false })]⟩

/-- Witness for C7_positive_qty at the concrete fixture `mkC7W`. -/
theorem C7_positive_qty_witness : 0 < (Trade.mk (.Soul 2) (.Soul 1) 2 0 0).qty := by
  refine C7_positive_qty mkC7W ?_ _ (by decide)
  intro kind m hm b o hbo
  rcases List.mem_singleton.mp hm with h1
  have hm2 := congrArg Prod.snd h1
  dsimp only [] at hm2
  rw [hm2] at hbo
  rcases List.mem_singleton.mp hbo with h2
  have ho2 := congrArg Prod.snd h2
  dsimp only [] at ho2
  rw [ho2]
  exact ⟨by norm_num, by norm_num⟩

theorem smFind_mem {α : Type} {m : SMap α} {k : Nat} {v : α} (h : smFind m k = some v) :
    (k, v) ∈ m := by
  induction m with
  | nil => simp [smFind] at h
  | cons p t ih =>
    rw [smFind] at h
    split at h
    · rename_i heq
      rcases Option.some.injEq _ _ ▸ h with h2
      refine List.mem_cons.mpr (Or.inl ?_)
      rw [Prod.ext_iff]
      exact ⟨heq, h2.symm⟩
    · exact List.mem_cons_of_mem p (ih h)

theorem countP_keys_zero {α : Type} (l : SMap α) (b : Nat)
    (h : b ∉ l.map Prod.fst) :
    l.countP (fun p => decide (p.1 = b)) = 0 := by
  rw [List.countP_eq_zero]
  intro p hp
  simp only [decide_eq_true_eq]
  intro hc
  exact h (List.mem_map.mpr ⟨p, hp, hc⟩)

theorem countP_keys_one {α : Type} (l : SMap α) (b : Nat) (o : α)
    (hnodup : (l.map Prod.fst).Nodup) (hmem : (b, o) ∈ l) :
    l.countP (fun p => decide (p.1 = b)) = 1 := by
  induction l with
  | nil => simp at hmem
  | cons p t ih =>
    rw [List.map_cons, List.nodup_cons] at hnodup
    rcases List.mem_cons.mp hmem with h1 | h1
    · have hp1 : p.1 = b := by rw [← h1]
      rw [List.countP_cons, countP_keys_zero t b (hp1 ▸ hnodup.1)]
      simp [hp1]
    · have hp1 : p.1 ≠ b := by
        intro hc
        exact hnodup.1 (hc ▸ List.mem_map.mpr ⟨(b, o), h1, rfl⟩)
      rw [List.countP_cons, ih hnodup.2 h1]
      simp [hp1]

theorem extBuyFold_cap_skip (kind : ItemID) (ev : Money) :
    ∀ (bos : SMap BuyOrder) (cap : SMap Int) (acc : List Trade) (b : SoulID),
      b ∉ bos.map Prod.fst →
      smGet0 (bos.foldl (extBuyStep kind ev) (cap, acc)).1 b = smGet0 cap b := by
  intro bos
  induction bos with
  | nil => intro cap acc b _; rfl
  | cons p ps ih =>
    intro cap acc b hb
    rw [List.map_cons] at hb
    rw [List.foldl_cons]
    rw [ih _ _ b (fun hc => hb (List.mem_cons_of_mem _ hc))]
    exact smGet0_insert_ne _ _ _ _ (fun hc => hb (hc ▸ List.mem_cons_self _ _))

theorem extBuyFold_cap (kind : ItemID) (ev : Money) :
    ∀ (bos : SMap BuyOrder) (cap : SMap Int) (acc : List Trade) (b : SoulID) (o : BuyOrder),
      (bos.map Prod.fst).Nodup → (b, o) ∈ bos →
      smGet0 (bos.foldl (extBuyStep kind ev) (cap, acc)).1 b =
        wrap32 (smGet0 cap b + u32_to_i32 o.qty) := by
  intro bos
  induction bos with
  | nil => intro cap acc b o _ hmem; simp at hmem
  | cons p ps ih =>
    intro cap acc b o hnodup hmem
    rw [List.map_cons, List.nodup_cons] at hnodup
    rw [List.foldl_cons]
    rcases List.mem_cons.mp hmem with h1 | h1
    · have hp : p = (b, o) := h1.symm
      subst hp
      rw [extBuyFold_cap_skip kind ev ps _ _ b hnodup.1]
      exact smGet0_insert_self _ _ _
    · have hp1 : p.1 ≠ b := by
        intro hc
        exact hnodup.1 (hc ▸ List.mem_map.mpr ⟨(b, o), h1, rfl⟩)
      rw [ih _ _ b o hnodup.2 h1]
      show wrap32 (smGet0 (smInsert cap p.1 _) b + _) = _
      rw [smGet0_insert_ne _ _ _ _ (Ne.symm hp1)]

/-- The market fixture for claim C2: a buy order of qty 2^31 on a
non-opted-out commodity with no sellers. -/
def mkC2 : Market :=
  ⟨[(0, { capital := [], buy_orders := [(2, { pos := (0, 0), qty := 2 ^ 31 })],
          sell_orders := [], ext_value := 3, optout_exttrade := false })]⟩

/-- Claim C2 counterexample: the buy order of qty 2^31 is still open
after the internal pass and is settled by one external trade — but that
trade's qty is -(2^31), not the order's qty 2^31, because of the
`order.qty as i32` cast; so the emitted trade's qty does not equal the
order's qty. -/
theorem C2_counterexample :
    ((Market.make_trades mkC2).2.map Trade.qty = [-(2 ^ 31 : Int)]) ∧
    (((2 ^ 31 : Nat) : Int) ≠ -(2 ^ 31 : Int)) :=
  ⟨by decide, by decide⟩

/-- Claim C2 (amended): on a non-opted-out commodity, every buy order
still open after the internal pass with qty < 2^31 is settled by exactly
one `{Soul, ExternalTrade}` trade in the emitted batch, that trade's qty
equals the order's qty and its money_delta is minus ext_value times qty,
the buyer's capital — in i32 range and not overflowing under the credit —
is credited by exactly qty in the external buy phase, and no buy order
remains open after `make_trades`.  (Without the overflow hypothesis the
wrapping i32 credit falsifies the exact-credit conclusion, e.g. at
capital 2^31 - 1 and qty 1.) -/
theorem C2_external_fallback (kind : ItemID) (mkt : SingleMarket)
    (hnodup : (mkt.buy_orders.map Prod.fst).Nodup)
    (hopt : mkt.optout_exttrade = false)
    (b : SoulID) (o : BuyOrder)
    (hfind : smFind (internalPass kind mkt).1.buy_orders b = some o)
    (hq : o.qty < 2 ^ 31)
    (hblo : -2 ^ 31 ≤ smGet0 (internalPass kind mkt).1.capital b)
    (hbhi : smGet0 (internalPass kind mkt).1.capital b + (o.qty : Int) < 2 ^ 31) :
    ((processCommodity kind mkt).2.countP
        (fun t => decide (t.buyer = TradeTarget.Soul b ∧
                          t.seller = TradeTarget.ExternalTrade)) = 1) ∧
    (Trade.mk (.Soul b) .ExternalTrade (o.qty : Int) kind
        (-(mkt.ext_value * (o.qty : Int))) ∈ (processCommodity kind mkt).2) ∧
    (smGet0 (extBuyPhase kind mkt.ext_value (internalPass kind mkt).1.capital
        (internalPass kind mkt).1.buy_orders).1 b =
      smGet0 (internalPass kind mkt).1.capital b + (o.qty : Int)) ∧
    (processCommodity kind mkt).1.buy_orders = [] := by
  have hmem : (b, o) ∈ (internalPass kind mkt).1.buy_orders := smFind_mem hfind
  have hnodup1 : ((internalPass kind mkt).1.buy_orders.map Prod.fst).Nodup := by
    refine List.Nodup.sublist (List.Sublist.map Prod.fst ?_) hnodup
    exact settleAll_buyOrders_sublist _ _
  have hcast : u32_to_i32 o.qty = (o.qty : Int) := u32_to_i32_small o.qty hq
  have hsplit : (processCommodity kind mkt).2 =
      (internalPass kind mkt).2 ++
      (extBuyPhase kind mkt.ext_value (internalPass kind mkt).1.capital
        (internalPass kind mkt).1.buy_orders).2 ++
      (extSellPhase kind mkt.ext_value
        (extBuyPhase kind mkt.ext_value (internalPass kind mkt).1.capital
          (internalPass kind mkt).1.buy_orders).1
        (internalPass kind mkt).1.sell_orders).2.2 := by
    unfold processCommodity
    rw [hopt]
    simp
  have hempty : (processCommodity kind mkt).1.buy_orders = [] := by
    unfold processCommodity
    rw [hopt]
    simp
  refine ⟨?_, ?_, ?_, hempty⟩
  · rw [hsplit, List.countP_append, List.countP_append]
    have c1 : (internalPass kind mkt).2.countP
        (fun t => decide (t.buyer = TradeTarget.Soul b ∧
                          t.seller = TradeTarget.ExternalTrade)) = 0 := by
      rw [List.countP_eq_zero]
      intro t ht
      rcases internal_trade_origin ht with ⟨_, _, _, d, hcand⟩
      rcases genCandidates_mem hcand with ⟨b', s', border, _, _, hshape⟩
      rw [hshape]
      simp
    have c3 : (extSellPhase kind mkt.ext_value
        (extBuyPhase kind mkt.ext_value (internalPass kind mkt).1.capital
          (internalPass kind mkt).1.buy_orders).1
        (internalPass kind mkt).1.sell_orders).2.2.countP
        (fun t => decide (t.buyer = TradeTarget.Soul b ∧
                          t.seller = TradeTarget.ExternalTrade)) = 0 := by
      rw [List.countP_eq_zero]
      intro t ht
      rcases extSellPhase_mem ht with ⟨s0, o0, _, q, _, hshape⟩
      rw [hshape]
      simp
    have c2 : (extBuyPhase kind mkt.ext_value (internalPass kind mkt).1.capital
        (internalPass kind mkt).1.buy_orders).2.countP
        (fun t => decide (t.buyer = TradeTarget.Soul b ∧
                          t.seller = TradeTarget.ExternalTrade)) = 1 := by
      rw [extBuyPhase_trades, List.countP_map]
      have hfun : ((fun t => decide (t.buyer = TradeTarget.Soul b ∧
            t.seller = TradeTarget.ExternalTrade)) ∘
          (fun p : SoulID × BuyOrder =>
            (⟨.Soul p.1, .ExternalTrade, u32_to_i32 p.2.qty, kind,
              -(mkt.ext_value * u32_to_i32 p.2.qty)⟩ : Trade))) =
          (fun p : SoulID × BuyOrder => decide (p.1 = b)) := by
        funext p
        rw [Function.comp_apply, decide_eq_decide]
        simp
      rw [hfun]
      exact countP_keys_one _ b o hnodup1 hmem
    rw [c1, c2, c3]
  · rw [hsplit]
    refine List.mem_append.mpr (Or.inl (List.mem_append.mpr (Or.inr ?_)))
    rw [extBuyPhase_trades]
    refine List.mem_map.mpr ⟨(b, o), hmem, ?_⟩
    rw [hcast]
  · unfold extBuyPhase
    rw [extBuyFold_cap kind mkt.ext_value _ _ _ b o hnodup1 hmem, hcast]
    exact wrap32_eq_self (by omega) hbhi

/-- The ledger fixture for the C2 witness: one open buy order that no
internal seller can satisfy. -/
def mktC2W : SingleMarket :=
  { capital := [], buy_orders := [(2, { pos := (0, 0), qty := 2 })], sell_orders := [],
    ext_value := 3, optout_exttrade := false }

/-- Witness for C2_external_fallback at the concrete fixture `mktC2W`. -/
theorem C2_external_fallback_witness :
    Trade.mk (.Soul 2) .ExternalTrade (2 : Int) 0 (-(3 * (2 : Int))) ∈
      (processCommodity 0 mktC2W).2 := by
  have h := C2_external_fallback 0 mktC2W (by decide) rfl 2
    ({ pos := (0, 0), qty := 2 }) (by decide) (by norm_num) (by decide) (by decide)
  simpa using h.2.1

theorem smFind_append_of_none {α : Type} {l1 : SMap α} {k : Nat} (l2 : SMap α)
    (h : smFind l1 k = none) : smFind (l1 ++ l2) k = smFind l2 k := by
  induction l1 with
  | nil => simp
  | cons p t ih =>
    rw [smFind] at h
    rw [List.cons_append, smFind]
    split at h
    · exact absurd h (by simp)
    · rename_i hne
      rw [if_neg hne]
      exact ih h

theorem smFind_append_of_some {α : Type} {l1 : SMap α} {k : Nat} {v : α} (l2 : SMap α)
    (h : smFind l1 k = some v) : smFind (l1 ++ l2) k = some v := by
  induction l1 with
  | nil => simp [smFind] at h
  | cons p t ih =>
    rw [smFind] at h
    rw [List.cons_append, smFind]
    split at h
    · rename_i heq
      rw [if_pos heq]
      exact h
    · rename_i hne
      rw [if_neg hne]
      exact ih h

theorem extSellStep_trades_prefix (kind : ItemID) (ev : Money)
    (acc : SMap Int × SMap SellOrder × List Trade) (p : SoulID × SellOrder) :
    ∃ rest, (extSellStep kind ev acc p).2.2 = acc.2.2 ++ rest := by
  unfold extSellStep
  dsimp only []
  split
  · exact ⟨[], by simp⟩
  · split
    · exact ⟨[], by simp⟩
    · exact ⟨_, rfl⟩

theorem extSellFold_trades_prefix (kind : ItemID) (ev : Money) :
    ∀ (l : SMap SellOrder) (acc : SMap Int × SMap SellOrder × List Trade),
      ∃ rest, (l.foldl (extSellStep kind ev) acc).2.2 = acc.2.2 ++ rest := by
  intro l
  induction l with
  | nil => intro acc; exact ⟨[], by simp⟩
  | cons p ps ih =>
    intro acc
    rw [List.foldl_cons]
    rcases ih (extSellStep kind ev acc p) with ⟨r2, hr2⟩
    rcases extSellStep_trades_prefix kind ev acc p with ⟨r1, hr1⟩
    exact ⟨r1 ++ r2, by rw [hr2, hr1, List.append_assoc]⟩

theorem extSellStep_skip (kind : ItemID) (ev : Money) (s : SoulID)
    (acc : SMap Int × SMap SellOrder × List Trade) (p : SoulID × SellOrder)
    (hne : p.1 ≠ s) :
    smGet0 (extSellStep kind ev acc p).1 s = smGet0 acc.1 s ∧
    smFind (extSellStep kind ev acc p).2.1 s = smFind acc.2.1 s ∧
    (extSellStep kind ev acc p).2.2.countP
      (fun t => decide (t.seller = TradeTarget.Soul s)) =
      acc.2.2.countP (fun t => decide (t.seller = TradeTarget.Soul s)) := by
  have hfind : ∀ (l : SMap SellOrder) (o : SellOrder),
      smFind (l ++ [(p.1, o)]) s = smFind l s := by
    intro l o
    cases hf : smFind l s with
    | some v => exact smFind_append_of_some _ hf
    | none =>
      rw [smFind_append_of_none _ hf]
      simp [smFind, Ne.symm hne]
  unfold extSellStep
  dsimp only []
  split
  · exact ⟨rfl, hfind _ _, rfl⟩
  · split
    · refine ⟨?_, hfind _ _, rfl⟩
      show smGet0 (smEntry0 acc.1 p.1) s = smGet0 acc.1 s
      exact smGet0_entry0 _ _ _
    · refine ⟨?_, hfind _ _, ?_⟩
      · show smGet0 (smInsert (smEntry0 acc.1 p.1) p.1 _) s = smGet0 acc.1 s
        rw [smGet0_insert_ne _ _ _ _ (Ne.symm hne)]
        exact smGet0_entry0 _ _ _
      · rw [List.countP_append]
        simp [hne]

theorem extSellFold_skip (kind : ItemID) (ev : Money) (s : SoulID) :
    ∀ (l : SMap SellOrder) (acc : SMap Int × SMap SellOrder × List Trade),
      s ∉ l.map Prod.fst →
      smGet0 (l.foldl (extSellStep kind ev) acc).1 s = smGet0 acc.1 s ∧
      smFind (l.foldl (extSellStep kind ev) acc).2.1 s = smFind acc.2.1 s ∧
      (l.foldl (extSellStep kind ev) acc).2.2.countP
        (fun t => decide (t.seller = TradeTarget.Soul s)) =
        acc.2.2.countP (fun t => decide (t.seller = TradeTarget.Soul s)) := by
  intro l
  induction l with
  | nil => intro acc _; exact ⟨rfl, rfl, rfl⟩
  | cons p ps ih =>
    intro acc hs
    rw [List.map_cons] at hs
    have hne : p.1 ≠ s := fun hc => hs (hc ▸ List.mem_cons_self _ _)
    have hps : s ∉ ps.map Prod.fst := fun hc => hs (List.mem_cons_of_mem _ hc)
    rw [List.foldl_cons]
    rcases ih (extSellStep kind ev acc p) hps with ⟨i1, i2, i3⟩
    rcases extSellStep_skip kind ev s acc p hne with ⟨j1, j2, j3⟩
    exact ⟨i1.trans j1, i2.trans j2, i3.trans j3⟩

theorem wrap32_sub_cast (q st : Nat) (h1 : st < q) (h2 : q < 2 ^ 32) :
    wrap32 (u32_to_i32 q - u32_to_i32 st) =
      if (q : Int) - st < 2 ^ 31 then (q : Int) - st else (q : Int) - st - 2 ^ 32 := by
  unfold wrap32 u32_to_i32
  have hq : q % 2 ^ 32 = q := Nat.mod_eq_of_lt h2
  have hst : st % 2 ^ 32 = st := Nat.mod_eq_of_lt (by omega)
  rw [hq, hst]
  split <;> split <;> split <;> omega

theorem usub32_sell (q st : Nat) (h1 : st < q) (h2 : q < 2 ^ 32)
    (hD : (q : Int) - st < 2 ^ 31) :
    usub32 q (i32_to_u32 ((q : Int) - st)) = st := by
  unfold usub32 i32_to_u32
  omega

/-- Claim C3: in the external sell fallback, every sell order whose qty
exceeds its stock (qty in u32 range, seller capital in i32 range) either
sells exactly the surplus qty - stock — debiting the capital by the
surplus, shrinking the order to its stock, and emitting exactly one
`{ExternalTrade, Soul}` trade with money credit ext_value * surplus —
when the capital covers the surplus, or is skipped with capital and order
untouched when it does not.  Modelled with wrapping (release-profile)
i32 arithmetic for the `qty as i32 - stock as i32` subtraction. -/
theorem C3_external_sell (kind : ItemID) (ev : Money) (cap : SMap Int) (sos : SMap SellOrder)
    (s : SoulID) (o : SellOrder)
    (hnodup : (sos.map Prod.fst).Nodup) (hmem : (s, o) ∈ sos)
    (hstock : o.stock < o.qty) (hq32 : o.qty < 2 ^ 32)
    (hcap : smGet0 cap s < 2 ^ 31) :
    (((o.qty : Int) - o.stock ≤ smGet0 cap s →
      smGet0 (extSellPhase kind ev cap sos).1 s =
        smGet0 cap s - ((o.qty : Int) - o.stock) ∧
      smFind (extSellPhase kind ev cap sos).2.1 s =
        some { pos := o.pos, qty := o.stock, stock := o.stock } ∧
      ((extSellPhase kind ev cap sos).2.2.countP
        (fun t => decide (t.seller = TradeTarget.Soul s)) = 1) ∧
      Trade.mk .ExternalTrade (.Soul s) ((o.qty : Int) - o.stock) kind
        (ev * ((o.qty : Int) - o.stock)) ∈ (extSellPhase kind ev cap sos).2.2) ∧
    (smGet0 cap s < (o.qty : Int) - o.stock →
      smGet0 (extSellPhase kind ev cap sos).1 s = smGet0 cap s ∧
      smFind (extSellPhase kind ev cap sos).2.1 s = some o ∧
      ((extSellPhase kind ev cap sos).2.2.countP
        (fun t => decide (t.seller = TradeTarget.Soul s)) = 0))) := by
  rcases List.append_of_mem hmem with ⟨l1, l2, rfl⟩
  have hkeys := hnodup
  rw [List.map_append, List.map_cons] at hkeys
  rcases List.nodup_append.mp hkeys with ⟨_, hn2, hdisj⟩
  have hs2 : s ∉ l2.map Prod.fst := by
    have := (List.nodup_cons.mp hn2).1
    simpa using this
  have hs1 : s ∉ l1.map Prod.fst := fun hc => (hdisj hc) (List.mem_cons_self _ _)
  rcases extSellFold_skip kind ev s l1 (cap, [], []) hs1 with ⟨a1, a2, a3⟩
  have hacc : ∃ c1 sa1 ts1,
      l1.foldl (extSellStep kind ev) (cap, [], []) = (c1, sa1, ts1) := ⟨_, _, _, rfl⟩
  rcases hacc with ⟨c1, sa1, ts1, hacc⟩
  rw [hacc] at a1 a2 a3
  dsimp only [] at a1 a2 a3
  have a2' : smFind sa1 s = none := by
    rw [a2]; rfl
  have a3' : ts1.countP (fun t => decide (t.seller = TradeTarget.Soul s)) = 0 := by
    rw [a3]; rfl
  unfold extSellPhase
  rw [List.foldl_append, List.foldl_cons, hacc]
  have hD := wrap32_sub_cast o.qty o.stock hstock hq32
  by_cases hD2 : (o.qty : Int) - o.stock < 2 ^ 31
  · have hq0 : wrap32 (u32_to_i32 o.qty - u32_to_i32 o.stock) =
        (o.qty : Int) - o.stock := by rw [hD, if_pos hD2]
    constructor
    · intro hle
      have hstep : extSellStep kind ev (c1, sa1, ts1) (s, o) =
          (smInsert (smEntry0 c1 s) s
            (smGet0 (smEntry0 c1 s) s - ((o.qty : Int) - o.stock)),
           sa1 ++ [(s, { o with qty := usub32 o.qty (i32_to_u32 ((o.qty : Int) - o.stock)) })],
           ts1 ++ [⟨.ExternalTrade, .Soul s, (o.qty : Int) - o.stock, kind,
             ev * ((o.qty : Int) - o.stock)⟩]) := by
        unfold extSellStep
        dsimp only []
        rw [hq0]
        rw [if_neg (by omega), if_neg (by rw [smGet0_entry0, a1]; omega)]
      rw [hstep]
      rcases extSellFold_skip kind ev s l2 _ hs2 with ⟨b1, b2, b3⟩
      refine ⟨?_, ?_, ?_, ?_⟩
      · rw [b1]
        dsimp only []
        rw [smGet0_insert_self, smGet0_entry0, a1]
      · rw [b2]
        dsimp only []
        rw [smFind_append_of_none _ a2']
        rw [usub32_sell o.qty o.stock hstock hq32 hD2]
        simp [smFind]
      · rw [b3]
        dsimp only []
        rw [List.countP_append, a3']
        simp
      · rcases extSellFold_trades_prefix kind ev l2
          (smInsert (smEntry0 c1 s) s
            (smGet0 (smEntry0 c1 s) s - ((o.qty : Int) - o.stock)),
           sa1 ++ [(s, { o with qty := usub32 o.qty (i32_to_u32 ((o.qty : Int) - o.stock)) })],
           ts1 ++ [⟨.ExternalTrade, .Soul s, (o.qty : Int) - o.stock, kind,
             ev * ((o.qty : Int) - o.stock)⟩]) with ⟨rest, hrest⟩
        rw [hrest]
        dsimp only []
        refine List.mem_append.mpr (Or.inl (List.mem_append.mpr (Or.inr ?_)))
        exact List.mem_singleton_self _
    · intro hlt
      have hstep : extSellStep kind ev (c1, sa1, ts1) (s, o) =
          (smEntry0 c1 s, sa1 ++ [(s, o)], ts1) := by
        unfold extSellStep
        dsimp only []
        rw [hq0]
        rw [if_neg (by omega), if_pos (by rw [smGet0_entry0, a1]; omega)]
      rw [hstep]
      rcases extSellFold_skip kind ev s l2 _ hs2 with ⟨b1, b2, b3⟩
      refine ⟨?_, ?_, ?_⟩
      · rw [b1]
        dsimp only []
        rw [smGet0_entry0, a1]
      · rw [b2]
        dsimp only []
        rw [smFind_append_of_none _ a2']
        simp [smFind]
      · rw [b3]
        dsimp only []
        exact a3'
  · have hq0 : wrap32 (u32_to_i32 o.qty - u32_to_i32 o.stock) =
        (o.qty : Int) - o.stock - 2 ^ 32 := by rw [hD, if_neg hD2]
    have hstep : extSellStep kind ev (c1, sa1, ts1) (s, o) =
        (c1, sa1 ++ [(s, o)], ts1) := by
      unfold extSellStep
      dsimp only []
      rw [hq0]
      rw [if_pos (by omega)]
    constructor
    · intro hle
      exact absurd hle (by omega)
    · intro hlt
      rw [hstep]
      rcases extSellFold_skip kind ev s l2 _ hs2 with ⟨b1, b2, b3⟩
      refine ⟨?_, ?_, ?_⟩
      · rw [b1]
        dsimp only []
        exact a1
      · rw [b2]
        dsimp only []
        rw [smFind_append_of_none _ a2']
        simp [smFind]
      · rw [b3]
        dsimp only []
        exact a3'

/-- Witness for C3_external_sell: seller 1 with capital 10 sells the
surplus 3 = 5 - 2 of its order externally at unit price 7. -/
theorem C3_external_sell_witness :
    Trade.mk .ExternalTrade (.Soul 1) (((5 : Nat) : Int) - ((2 : Nat) : Int)) 0
      (7 * (((5 : Nat) : Int) - ((2 : Nat) : Int))) ∈
      (extSellPhase 0 7 [(1, 10)] [(1, { pos := (0, 0), qty := 5, stock := 2 })]).2.2 :=
  ((C3_external_sell 0 7 [(1, 10)] [(1, { pos := (0, 0), qty := 5, stock := 2 })] 1
    { pos := (0, 0), qty := 5, stock := 2 } (by decide) (by decide) (by norm_num)
    (by norm_num) (by decide)).1 (by decide)).2.2.2

theorem smSorted_lt_of_mem {α : Type} :
    ∀ {t : SMap α} {p q : Nat × α}, smSorted (p :: t) → q ∈ t → p.1 < q.1 := by
  intro t
  induction t with
  | nil => intro p q _ hq; simp at hq
  | cons r rs ih =>
    intro p q hs hq
    have h1 : p.1 < r.1 := (List.chain'_cons.mp hs).1
    rcases List.mem_cons.mp hq with h2 | h2
    · rw [h2]; exact h1
    · exact h1.trans (ih (List.Chain'.tail hs) h2)

theorem smFind_eq_none_of_lt {α : Type} {t : SMap α} {k : Nat}
    (h : ∀ q ∈ t, k < q.1) : smFind t k = none := by
  induction t with
  | nil => rfl
  | cons r rs ih =>
    rw [smFind]
    rw [if_neg (by have := h r (List.mem_cons_self _ _); omega)]
    exact ih (fun q hq => h q (List.mem_cons_of_mem r hq))

theorem smFind_cons_self {α : Type} (p : Nat × α) (t : SMap α) :
    smFind (p :: t) p.1 = some p.2 := by
  simp [smFind]

theorem smFind_cons_ne {α : Type} {p : Nat × α} {k : Nat} (t : SMap α) (h : k ≠ p.1) :
    smFind (p :: t) k = smFind t k := by
  simp [smFind, h]

theorem smSorted_canonical {α : Type} :
    ∀ (l1 l2 : SMap α), smSorted l1 → smSorted l2 →
      (∀ k, smFind l1 k = smFind l2 k) → l1 = l2 := by
  intro l1
  induction l1 with
  | nil =>
    intro l2 _ _ h
    cases l2 with
    | nil => rfl
    | cons q t2 =>
      have hq := h q.1
      rw [smFind_cons_self] at hq
      exact absurd hq (by simp [smFind])
  | cons p t1 ih =>
    intro l2 hs1 hs2 h
    cases l2 with
    | nil =>
      have hp := h p.1
      rw [smFind_cons_self] at hp
      exact absurd hp (by simp [smFind])
    | cons q t2 =>
      have hkey : p.1 = q.1 := by
        by_contra hne
        have h1 := h p.1
        rw [smFind_cons_self, smFind_cons_ne t2 hne] at h1
        have hp2 : q.1 < p.1 := smSorted_lt_of_mem hs2 (smFind_mem h1.symm)
        have h2 := h q.1
        rw [smFind_cons_self, smFind_cons_ne t1 (fun hc => hne hc.symm)] at h2
        have hq2 : p.1 < q.1 := smSorted_lt_of_mem hs1 (smFind_mem h2)
        omega
      have hval : p.2 = q.2 := by
        have h1 := h p.1
        rw [smFind_cons_self, hkey, smFind_cons_self] at h1
        exact Option.some.injEq _ _ ▸ h1
      have htail : t1 = t2 := by
        refine ih t2 (List.Chain'.tail hs1) (List.Chain'.tail hs2) ?_
        intro k
        by_cases hk : k = p.1
        · subst hk
          rw [smFind_eq_none_of_lt (fun q2 hq2 => smSorted_lt_of_mem hs1 hq2)]
          rw [smFind_eq_none_of_lt (fun q2 hq2 => hkey ▸ smSorted_lt_of_mem hs2 hq2)]
        · have hk2 : k ≠ q.1 := by rw [← hkey]; exact hk
          have := h k
          rw [smFind_cons_ne t1 hk, smFind_cons_ne t2 hk2] at this
          exact this
      rw [htail, Prod.ext_iff.mpr ⟨hkey, hval⟩]

/-- Observable equality of two per-commodity ledgers: the same capital,
buy-order and sell-order lookups, the same external value and the same
opt-out flag. -/
def SingleMarket.ExtEq (a b : SingleMarket) : Prop :=
  (∀ k, smFind a.capital k = smFind b.capital k) ∧
  (∀ k, smFind a.buy_orders k = smFind b.buy_orders k) ∧
  (∀ k, smFind a.sell_orders k = smFind b.sell_orders k) ∧
  a.ext_value = b.ext_value ∧ a.optout_exttrade = b.optout_exttrade

theorem SingleMarket.extEq_refl (m : SingleMarket) : m.ExtEq m :=
  ⟨fun _ => rfl, fun _ => rfl, fun _ => rfl, rfl, rfl⟩

/-- The BTreeMap canonical-form invariant for one ledger. -/
def SingleMarket.WF (m : SingleMarket) : Prop :=
  smSorted m.capital ∧ smSorted m.buy_orders ∧ smSorted m.sell_orders

/-- The BTreeMap canonical-form invariant for the whole market. -/
def Market.WF (mk : Market) : Prop :=
  smSorted mk.markets ∧ ∀ k m, smFind mk.markets k = some m → m.WF

/-- Observable equality of two markets: identical ledger content for
every commodity. -/
def Market.SameObs (a b : Market) : Prop :=
  ∀ k, (smFind a.markets k = none ∧ smFind b.markets k = none) ∨
    (∃ x y, smFind a.markets k = some x ∧ smFind b.markets k = some y ∧ x.ExtEq y)

theorem singleMarket_canonical (a b : SingleMarket) (ha : a.WF) (hb : b.WF)
    (h : a.ExtEq b) : a = b := by
  obtain ⟨h1, h2, h3, h4, h5⟩ := h
  cases a
  cases b
  simp only [SingleMarket.mk.injEq]
  exact ⟨smSorted_canonical _ _ ha.1 hb.1 h1,
         smSorted_canonical _ _ ha.2.1 hb.2.1 h2,
         smSorted_canonical _ _ ha.2.2 hb.2.2 h3, h4, h5⟩

/-- Claim C9: `make_trades` is deterministic — two markets that agree on
every observable component (capital, orders with their positions, hence
identical tie-break distances, external values and opt-out flags), both
in the canonical sorted-map form BTreeMap guarantees, produce the same
trade batch in the same order and the same resulting market state. -/
theorem C9_deterministic (a b : Market) (ha : a.WF) (hb : b.WF)
    (h : Market.SameObs a b) : a.make_trades = b.make_trades := by
  have hab : a = b := by
    cases a with
    | mk ma =>
      cases b with
      | mk mb =>
        congr 1
        refine smSorted_canonical ma mb ha.1 hb.1 ?_
        intro k
        rcases h k with ⟨h1, h2⟩ | ⟨x, y, hx, hy, hxy⟩
        · rw [h1, h2]
        · rw [hx, hy]
          rw [singleMarket_canonical x y (ha.2 k x hx) (hb.2 k y hy) hxy]
  rw [hab]

/-- The market fixture for the C9 witness. -/
def mkC9 : Market :=
  ⟨[(0, { capital := [(1, 3)], buy_orders := [(2, { pos := (0, 0), qty := 2 })],
          sell_orders := [(1, { pos := (1, 0), qty := 3, stock := 5 })],
          ext_value := 7, optout_exttrade := false })]⟩

/-- Witness for C9_deterministic at the concrete fixture `mkC9`. -/
theorem C9_deterministic_witness : mkC9.make_trades = mkC9.make_trades := by
  have hwf : mkC9.WF := by
    constructor
    · exact List.chain'_singleton _
    · intro k m hm
      simp only [mkC9] at hm
      rw [smFind] at hm
      split at hm
      · rcases Option.some.injEq _ _ ▸ hm with h2
        rw [← h2]
        exact ⟨List.chain'_singleton _, List.chain'_singleton _, List.chain'_singleton _⟩
      · simp [smFind] at hm
  have hobs : Market.SameObs mkC9 mkC9 := by
    intro k
    by_cases hk : k = 0
    · subst hk
      exact Or.inr ⟨_, _, rfl, rfl, SingleMarket.extEq_refl _⟩
    · refine Or.inl ⟨?_, ?_⟩ <;> simp [mkC9, smFind, hk]
  exact C9_deterministic mkC9 mkC9 hwf hwf hobs

/-- Entries of the memo map persist (the run never overwrites an entry). -/
def Submap (m m' : SMap Int) : Prop :=
  ∀ k v, smFind m k = some v → smFind m' k = some v

/-- All consumed items of all producers of `k` are priced in `m`. -/
def DepsIn (cat : Catalog) (m : SMap Int) (k : ItemID) : Prop :=
  ∀ c ∈ itemGraph cat k, ∀ r ∈ c.recipe.consumption, (smFind m r.id).isSome

/-- Every priced item satisfies the fixed-point price equation with all
its dependencies priced. -/
def GoodAll (cat : Catalog) (mF : Int → Int) (wcps : Money) (m : SMap Int) : Prop :=
  ∀ k v, smFind m k = some v → DepsIn cat m k ∧ v = specPrice cat mF wcps m k

/-- A rank function witnessing acyclicity of the production graph: every
consumed item of a recipe ranks strictly below every produced item. -/
def RankOk (cat : Catalog) (R : ItemID → Nat) : Prop :=
  ∀ c ∈ cat.companies, ∀ pr ∈ c.recipe.production, ∀ r ∈ c.recipe.consumption,
    R r.id < R pr.id

theorem itemGraph_mem {cat : Catalog} {id : ItemID} {c : GoodsCompany}
    (h : c ∈ itemGraph cat id) :
    c ∈ cat.companies ∧ ∃ pr ∈ c.recipe.production, pr.id = id := by
  unfold itemGraph at h
  rcases List.mem_flatMap.mp h with ⟨c', hc', hmem⟩
  rcases List.mem_filterMap.mp hmem with ⟨r, hr, hsome⟩
  split at hsome
  · rename_i hid
    rcases Option.some.injEq _ _ ▸ hsome with h2
    exact h2 ▸ ⟨hc', r, hr, hid⟩
  · simp at hsome

theorem rank_of_itemGraph {cat : Catalog} {R : ItemID → Nat} (hrank : RankOk cat R)
    {id : ItemID} {c : GoodsCompany} {r : RecipeItem}
    (hc : c ∈ itemGraph cat id) (hr : r ∈ c.recipe.consumption) : R r.id < R id := by
  rcases itemGraph_mem hc with ⟨hcomp, pr, hpr, hid⟩
  have := hrank c hcomp pr hpr r hr
  rw [hid] at this
  exact this

theorem Submap.refl (m : SMap Int) : Submap m m := fun _ _ h => h

theorem Submap.trans {m1 m2 m3 : SMap Int} (h1 : Submap m1 m2) (h2 : Submap m2 m3) :
    Submap m1 m3 := fun k v h => h2 k v (h1 k v h)

theorem Submap.isSome {m m' : SMap Int} (h : Submap m m') {k : Nat}
    (hk : (smFind m k).isSome) : (smFind m' k).isSome := by
  rcases Option.isSome_iff_exists.mp hk with ⟨v, hv⟩
  rw [h k v hv]
  rfl

theorem smGet0_stable {m m' : SMap Int} (h : Submap m m') {k : Nat}
    (hk : (smFind m k).isSome) : smGet0 m' k = smGet0 m k := by
  rcases Option.isSome_iff_exists.mp hk with ⟨v, hv⟩
  rw [smGet0, smGet0, hv, h k v hv]

theorem consSum_stable {m m' : SMap Int} (h : Submap m m') :
    ∀ {l : List RecipeItem}, (∀ r ∈ l, (smFind m r.id).isSome) →
      consSum m' l = consSum m l := by
  intro l
  induction l with
  | nil => intro _; rfl
  | cons r rs ih =>
    intro hl
    rw [consSum, consSum]
    rw [smGet0_stable h (hl r (List.mem_cons_self _ _))]
    rw [ih (fun r2 hr2 => hl r2 (List.mem_cons_of_mem r hr2))]

theorem companyPrice_stable {m m' : SMap Int} (mF : Int → Int) (wcps : Money)
    (c : GoodsCompany) (id : ItemID) (h : Submap m m')
    (hdeps : ∀ r ∈ c.recipe.consumption, (smFind m r.id).isSome) :
    companyPrice mF wcps m' c id = companyPrice mF wcps m c id := by
  unfold companyPrice
  rw [consSum_stable h hdeps]

theorem map_companyPrice_congr {m m' : SMap Int} (mF : Int → Int) (wcps : Money)
    (id : ItemID) (h : Submap m m') :
    ∀ {cs : List GoodsCompany},
      (∀ c ∈ cs, ∀ r ∈ c.recipe.consumption, (smFind m r.id).isSome) →
      cs.map (fun c => companyPrice mF wcps m' c id) =
        cs.map (fun c => companyPrice mF wcps m c id) := by
  intro cs
  induction cs with
  | nil => intro _; rfl
  | cons c cs2 ih =>
    intro hl
    rw [List.map_cons, List.map_cons]
    rw [companyPrice_stable mF wcps c id h (hl c (List.mem_cons_self _ _))]
    rw [ih (fun c2 hc2 => hl c2 (List.mem_cons_of_mem c hc2))]

theorem specPrice_stable {cat : Catalog} {m m' : SMap Int} (mF : Int → Int) (wcps : Money)
    {k : ItemID} (h : Submap m m') (hdeps : DepsIn cat m k) :
    specPrice cat mF wcps m' k = specPrice cat mF wcps m k := by
  unfold specPrice
  rw [map_companyPrice_congr mF wcps k h hdeps]

theorem smFind_insert_isSome {α : Type} (m : SMap α) (i k : Nat) (v : α)
    (h : (smFind m k).isSome) : (smFind (smInsert m i v) k).isSome := by
  by_cases hk : k = i
  · subst hk
    rw [smFind_insert_self]
    rfl
  · rw [smFind_insert_ne _ _ _ _ hk]
    exact h

theorem submap_insert_fresh {m : SMap Int} {i : Nat} (v : Int)
    (h : smFind m i = none) : Submap m (smInsert m i v) := by
  intro k v' hk
  by_cases hki : k = i
  · subst hki
    rw [h] at hk
    exact absurd hk (by simp)
  · rw [smFind_insert_ne _ _ _ _ hki]
    exact hk

/-- The contract of one recursive pricing step (packaged induction
hypothesis for the fuel induction): the memo map only grows, the priced
item ends up present, every newly inserted item ranks at most as high as
the requested one, and the fixed-point property of the map is preserved. -/
def StepOk (cat : Catalog) (mF : Int → Int) (wcps : Money) (R : ItemID → Nat)
    (g : ItemID → SMap Int → Option (SMap Int)) : Prop :=
  ∀ i m m', g i m = some m' →
    Submap m m' ∧ (smFind m' i).isSome ∧
    (∀ k, smFind m k = none → (smFind m' k).isSome → R k ≤ R i) ∧
    (GoodAll cat mF wcps m → GoodAll cat mF wcps m')

theorem consLoop_ok {cat : Catalog} {mF : Int → Int} {wcps : Money} {R : ItemID → Nat}
    {g : ItemID → SMap Int → Option (SMap Int)} (hg : StepOk cat mF wcps R g) :
    ∀ (rs : List RecipeItem) (m : SMap Int) (acc : Money) (m' : SMap Int) (acc' : Money),
      consLoop g rs m acc = some (m', acc') →
      Submap m m' ∧ (∀ r ∈ rs, (smFind m' r.id).isSome) ∧
      (∀ k, smFind m k = none → (smFind m' k).isSome → ∃ r ∈ rs, R k ≤ R r.id) ∧
      (GoodAll cat mF wcps m → GoodAll cat mF wcps m') ∧
      acc' = acc + consSum m' rs := by
  intro rs
  induction rs with
  | nil =>
    intro m acc m' acc' h
    rw [consLoop] at h
    simp only [Option.some.injEq, Prod.mk.injEq] at h
    obtain ⟨h1, h2⟩ := h
    subst h1
    subst h2
    refine ⟨Submap.refl m, by simp, ?_, id, by rw [consSum]; ring⟩
    intro k h1 h2
    rw [h1] at h2
    simp at h2
  | cons r rs2 ih =>
    intro m acc m' acc' h
    rw [consLoop] at h
    rcases hstep : g r.id m with _ | m1
    · rw [hstep] at h
      simp at h
    · rw [hstep] at h
      rcases ih m1 _ m' acc' h with ⟨i1, i2, i3, i4, i5⟩
      rcases hg r.id m m1 hstep with ⟨s1, s2, s3, _⟩
      have s4 := (hg r.id m m1 hstep).2.2.2
      refine ⟨s1.trans i1, ?_, ?_, fun hG => i4 (s4 hG), ?_⟩
      · intro r2 hr2
        rcases List.mem_cons.mp hr2 with h2 | h2
        · rw [h2]
          exact i1.isSome s2
        · exact i2 r2 h2
      · intro k hknone hksome
        rcases hfind : smFind m1 k with _ | v
        · rcases i3 k hfind hksome with ⟨r2, hr2, hle⟩
          exact ⟨r2, List.mem_cons_of_mem r hr2, hle⟩
        · have hsome1 : (smFind m1 k).isSome := by rw [hfind]; rfl
          exact ⟨r, List.mem_cons_self _ _, s3 k hknone hsome1⟩
      · rw [i5, consSum, smGet0_stable i1 s2]
        ring

theorem compLoop_ok {cat : Catalog} {mF : Int → Int} {wcps : Money} {R : ItemID → Nat}
    {g : ItemID → SMap Int → Option (SMap Int)} (hg : StepOk cat mF wcps R g)
    (id : ItemID) :
    ∀ (cs : List GoodsCompany) (m : SMap Int) (acc : Option Money) (m' : SMap Int)
      (acc' : Option Money),
      compLoop mF wcps g id cs m acc = some (m', acc') →
      Submap m m' ∧ (∀ c ∈ cs, ∀ r ∈ c.recipe.consumption, (smFind m' r.id).isSome) ∧
      (∀ k, smFind m k = none → (smFind m' k).isSome →
        ∃ c ∈ cs, ∃ r ∈ c.recipe.consumption, R k ≤ R r.id) ∧
      (GoodAll cat mF wcps m → GoodAll cat mF wcps m') ∧
      acc' = (cs.map (fun c => companyPrice mF wcps m' c id)).foldl minFold acc := by
  intro cs
  induction cs with
  | nil =>
    intro m acc m' acc' h
    rw [compLoop] at h
    simp only [Option.some.injEq, Prod.mk.injEq] at h
    obtain ⟨h1, h2⟩ := h
    subst h1
    subst h2
    refine ⟨Submap.refl m, by simp, ?_, fun hG => hG, by simp⟩
    intro k h1 h2
    rw [h1] at h2
    simp at h2
  | cons c cs2 ih =>
    intro m acc m' acc' h
    rw [compLoop] at h
    rcases hcl : consLoop g c.recipe.consumption m 0 with _ | pr
    · rw [hcl] at h
      simp at h
    · obtain ⟨m1, pc⟩ := pr
      rw [hcl] at h
      dsimp only [] at h
      rcases consLoop_ok hg c.recipe.consumption m 0 m1 pc hcl with ⟨c1, c2, c3, c4, c5⟩
      rcases ih m1 _ m' acc' h with ⟨i1, i2, i3, i4, i5⟩
      have hnew : Int.tdiv (pc + mF (laborCost wcps c)) (prodAmount c id) =
          companyPrice mF wcps m' c id := by
        unfold companyPrice
        rw [c5, zero_add, consSum_stable i1 c2]
      refine ⟨c1.trans i1, ?_, ?_, fun hG => i4 (c4 hG), ?_⟩
      · intro c' hc' r hr
        rcases List.mem_cons.mp hc' with h2 | h2
        · rw [h2] at hr
          exact i1.isSome (c2 r hr)
        · exact i2 c' h2 r hr
      · intro k hknone hksome
        rcases hfind : smFind m1 k with _ | v
        · rcases i3 k hfind hksome with ⟨c', hc', r, hr, hle⟩
          exact ⟨c', List.mem_cons_of_mem c hc', r, hr, hle⟩
        · have hsome1 : (smFind m1 k).isSome := by rw [hfind]; rfl
          rcases c3 k hknone hsome1 with ⟨r, hr, hle⟩
          exact ⟨c, List.mem_cons_self _ _, r, hr, hle⟩
      · rw [i5, List.map_cons, List.foldl_cons, hnew]

theorem calcInner_ok {cat : Catalog} {mF : Int → Int} {wcps : Money} {R : ItemID → Nat}
    (hrank : RankOk cat R) :
    ∀ f : Nat, StepOk cat mF wcps R (calcInner cat mF wcps f) := by
  intro f
  induction f with
  | zero =>
    intro i m m' h
    rw [calcInner] at h
    simp at h
  | succ f ih =>
    intro i m m' h
    rw [calcInner] at h
    split at h
    · rename_i hcont
      have hm : m = m' := Option.some.injEq _ _ ▸ h
      refine ⟨hm ▸ Submap.refl m, hm ▸ hcont, ?_, hm ▸ id⟩
      intro k h1 h2
      rw [← hm] at h2
      rw [h1] at h2
      simp at h2
    · rename_i hcont
      rcases hcmp : compLoop mF wcps (calcInner cat mF wcps f) i (itemGraph cat i) m none
        with _ | pr
      · rw [hcmp] at h
        simp at h
      · obtain ⟨m0, minp⟩ := pr
        rw [hcmp] at h
        dsimp only [] at h
        have hm' : m' = smInsert m0 i (minp.getD 0) := (Option.some.injEq _ _ ▸ h).symm
        rcases compLoop_ok ih i (itemGraph cat i) m none m0 minp hcmp with
          ⟨p1, p2, p3, p4, p5⟩
        have hmi : smFind m i = none := by
          rcases hf : smFind m i with _ | v
          · rfl
          · exact absurd (by rw [hf]; rfl) hcont
        have hfresh : smFind m0 i = none := by
          rcases hf : smFind m0 i with _ | v
          · rfl
          · have hsome : (smFind m0 i).isSome := by rw [hf]; rfl
            rcases p3 i hmi hsome with ⟨c, hc, r, hr, hle⟩
            exact absurd hle (by have := rank_of_itemGraph hrank hc hr; omega)
        subst hm'
        refine ⟨p1.trans (submap_insert_fresh _ hfresh), ?_, ?_, ?_⟩
        · rw [smFind_insert_self]
          rfl
        · intro k hknone hksome
          by_cases hki : k = i
          · rw [hki]
          · rw [smFind_insert_ne _ _ _ _ hki] at hksome
            rcases p3 k hknone hksome with ⟨c, hc, r, hr, hle⟩
            have := rank_of_itemGraph hrank hc hr
            omega
        · intro hG
          have hG0 := p4 hG
          intro k v hkv
          by_cases hki : k = i
          · subst hki
            rw [smFind_insert_self] at hkv
            have hv : v = minp.getD 0 := (Option.some.injEq _ _ ▸ hkv).symm
            constructor
            · intro c hc r hr
              exact smFind_insert_isSome _ _ _ _ (p2 c hc r hr)
            · rw [hv]
              have hsp : specPrice cat mF wcps (smInsert m0 k (minp.getD 0)) k =
                  specPrice cat mF wcps m0 k :=
                specPrice_stable mF wcps (submap_insert_fresh _ hfresh) p2
              rw [hsp]
              unfold specPrice
              rw [← p5]
          · rw [smFind_insert_ne _ _ _ _ hki] at hkv
            rcases hG0 k v hkv with ⟨hd, hv⟩
            constructor
            · intro c hc r hr
              exact smFind_insert_isSome _ _ _ _ (hd c hc r hr)
            · rw [hv]
              exact (specPrice_stable mF wcps (submap_insert_fresh _ hfresh) hd).symm

theorem calculatePricesAux_ok {cat : Catalog} {mF : Int → Int} {wcps : Money}
    {R : ItemID → Nat} (hrank : RankOk cat R) (f : Nat) :
    ∀ (items : List ItemID) (m m' : SMap Int),
      calculatePricesAux cat mF wcps f items m = some m' →
      Submap m m' ∧ (∀ i ∈ items, (smFind m' i).isSome) ∧
      (GoodAll cat mF wcps m → GoodAll cat mF wcps m') := by
  intro items
  induction items with
  | nil =>
    intro m m' h
    rw [calculatePricesAux] at h
    have hm : m = m' := Option.some.injEq _ _ ▸ h
    exact ⟨hm ▸ Submap.refl m, by simp, hm ▸ id⟩
  | cons i is ih =>
    intro m m' h
    rw [calculatePricesAux] at h
    rcases hstep : calcInner cat mF wcps f i m with _ | m1
    · rw [hstep] at h
      simp at h
    · rw [hstep] at h
      rcases ih m1 m' h with ⟨i1, i2, i3⟩
      rcases calcInner_ok hrank f i m m1 hstep with ⟨s1, s2, _, s4⟩
      refine ⟨s1.trans i1, ?_, fun hG => i3 (s4 hG)⟩
      intro j hj
      rcases List.mem_cons.mp hj with h2 | h2
      · rw [h2]
        exact i1.isSome s2
      · exact i2 j h2

/-- Claim C5: a successful `calculate_prices` run assigns every catalog
item a price; an item with at least one producing company gets the
minimum over those companies of (consumption cost read off the final
price map, plus the multiplier `mF` applied to the labor term
complexity * workers * per-worker cost only) divided (i64 truncated
division) by the company's produced amount of the item; an item with no
producer gets price zero.  The hypotheses are a rank function witnessing
the acyclicity the recursion requires (on a cyclic catalog the Rust
recursion diverges and the fuel model returns `none`), and positive
production amounts, which rule out the division-by-zero panic the total
`Int.tdiv` embedding would otherwise silently totalize. -/
theorem C5_prices (cat : Catalog) (mF : Int → Int) (wcps : Money) (R : ItemID → Nat)
    (fuel : Nat) (P : SMap Int)
    (hrank : RankOk cat R)
    (hpos : ∀ c ∈ cat.companies, ∀ r ∈ c.recipe.production, 0 < r.amount)
    (hrun : calculate_prices cat mF wcps fuel = some P) :
    (∀ id ∈ cat.items, ∃ v, smFind P id = some v ∧ v = specPrice cat mF wcps P id) ∧
    (∀ id ∈ cat.items, itemGraph cat id = [] → smFind P id = some 0) := by
  unfold calculate_prices at hrun
  rcases calculatePricesAux_ok hrank fuel cat.items [] P hrun with ⟨_, h2, h3⟩
  have hgood : GoodAll cat mF wcps P := by
    refine h3 ?_
    intro k v hkv
    simp [smFind] at hkv
  have hmain : ∀ id ∈ cat.items,
      ∃ v, smFind P id = some v ∧ v = specPrice cat mF wcps P id := by
    intro id hid
    rcases Option.isSome_iff_exists.mp (h2 id hid) with ⟨v, hv⟩
    exact ⟨v, hv, (hgood id v hv).2⟩
  refine ⟨hmain, ?_⟩
  intro id hid hgraph
  rcases hmain id hid with ⟨v, hv, hs⟩
  rw [hv, hs]
  unfold specPrice
  rw [hgraph]
  rfl

/-- The catalog fixture for the C5 witness (the repository's own price
test): a cereal farm (complexity 3, 2 workers, produces 3 cereal) and a
wheat factory (complexity 10, 5 workers, consumes 2 cereal, produces 2
wheat). -/
def catC5 : Catalog :=
  { companies :=
      [ { recipe := { production := [⟨0, 3⟩], consumption := [], complexity := 3 },
          n_workers := 2 }
      , { recipe := { production := [⟨1, 2⟩], consumption := [⟨0, 2⟩], complexity := 10 },
          n_workers := 5 } ]
  , items := [0, 1] }

/-- The price map `calculate_prices` computes on `catC5` with identity
multiplier and a per-worker cost of 100: cereal 200, wheat 2700. -/
def PC5 : SMap Int := [(0, 200), (1, 2700)]

/-- Witness for C5_prices on the concrete catalog `catC5`. -/
theorem C5_prices_witness :
    ∃ v, smFind PC5 0 = some v ∧ v = specPrice catC5 (fun x => x) 100 PC5 0 :=
  (C5_prices catC5 (fun x => x) 100 (fun n => n) 10 PC5
    (by unfold RankOk; decide) (by decide) (by rfl)).1 0 (by decide)
